import Mathlib

/-! # dumptruck: a coredump capture helper

A shallow embedding of `main.go`.  Go strings are lists of characters, the
coredump stream is a list of bytes, and everything the program asks of its
surroundings (flags, clock, `/proc`, hostname, container runtime, HDFS, local
filesystem) is a field of an explicit environment.  The standard-library
functions the program calls (`regexp`, `path`, `strings.Split`, `fmt.Sprintf`,
`time.Format`) are embedded from their documented behaviour.
-/

namespace Dumptruck

/-- Go `string`, as the list of its characters. -/
abbrev Str := List Char

/-! ## regexp: the pattern of `cgroup` -/

/-- The pieces a pattern such as `.*docker\/(.*)` is a concatenation of. -/
inductive Item where
  /-- one literal character -/
  | lit (c : Char)
  /-- greedy `.*`; `.` matches every character but a newline -/
  | dotStar
  /-- `(` of the first capture group -/
  | capOpen
  /-- `)` of the first capture group -/
  | capClose
  deriving DecidableEq, Repr

/-- Positions of a match: end of the whole match, start and end of group 1. -/
abbrev MatchPos := Nat × Nat × Nat

/-- Greedy `.*` followed by the continuation `cont`: take one more character
when it is not a newline and the rest then matches, otherwise stop here. -/
def starLoop (cont : Nat → Str → Option MatchPos) : Nat → Str → Option MatchPos
  | pos, [] => cont pos []
  | pos, x :: t =>
    if x ≠ '\n' then
      match starLoop cont (pos + 1) t with
      | some r => some r
      | none => cont pos (x :: t)
    else cont pos (x :: t)

/-- Backtracking match of the items at position `pos`, where `s` is the input
from `pos` on and `cap` the group positions recorded so far. -/
def matchHere : List Item → Nat → Str → Nat × Nat → Option MatchPos
  | [], pos, _, cap => some (pos, cap.1, cap.2)
  | Item.lit c :: k, pos, s, cap =>
    match s with
    | [] => none
    | x :: t => if x = c then matchHere k (pos + 1) t cap else none
  | Item.capOpen :: k, pos, s, cap => matchHere k pos s (pos, cap.2)
  | Item.capClose :: k, pos, s, cap => matchHere k pos s (cap.1, pos)
  | Item.dotStar :: k, pos, s, cap => starLoop (fun p r => matchHere k p r cap) pos s

/-- Leftmost match: the first start position from which the items match. -/
def findFrom (items : List Item) : Nat → Str → Option (Nat × MatchPos)
  | pos, [] => (matchHere items pos [] (0, 0)).map (fun r => (pos, r))
  | pos, x :: t =>
    match matchHere items pos (x :: t) (0, 0) with
    | some r => some (pos, r)
    | none => findFrom items (pos + 1) t

/-- Go slice `s[a:b]`. -/
def slice (s : Str) (a b : Nat) : Str := (s.drop a).take (b - a)

/-- `(*Regexp).FindStringSubmatch` for a pattern with one group: the empty
slice when nothing matches, else the whole match and the text of group 1. -/
def findStringSubmatch (items : List Item) (s : Str) : List Str :=
  match findFrom items 0 s with
  | none => []
  | some (a, b, c, d) => [slice s a b, slice s c d]

/-- The literal `docker/`. -/
def dockerLit : Str := ['d', 'o', 'c', 'k', 'e', 'r', '/']

/-- Items of `docker\/(.*)`, the pattern after its leading `.*`. -/
def cgroupTail : List Item :=
  dockerLit.map Item.lit ++ [Item.capOpen, Item.dotStar, Item.capClose]

/-- The compiled pattern `cgroup`, main.go line 27. -/
def cgroup : List Item := Item.dotStar :: cgroupTail

/-! ## strings, path, fmt, time -/

/-- `strings.Split(s, sep)` for a one-character separator: the pieces between
the separators, a single empty piece for the empty string. -/
def stringsSplit (sep : Char) : Str → List Str
  | [] => [[]]
  | c :: cs =>
    if c = sep then [] :: stringsSplit sep cs
    else
      match stringsSplit sep cs with
      | [] => [[c]]
      | e :: es => (c :: e) :: es

/-- Inner loop of the `..` case of `path.Clean`,
`for out.w > dotdot && out.index(out.w) != '/' { out.w-- }`, started at `w`. -/
def backtrack (out : Str) (dotdot : Nat) : Nat → Nat
  | 0 => 0
  | w + 1 =>
    if w + 1 > dotdot ∧ out.getD (w + 1) '/' ≠ '/' then backtrack out dotdot w else w + 1

/-- One round of the loop of `path.Clean`.  The loop reads the path element by
element (an element ends at a slash or at the end of the path), so a round is
given the element `e`: the empty element and `.` are dropped, `..` removes the
last element of the buffer down to `dotdot` or, in an unrooted path that has
nothing to remove, is appended and moves `dotdot`, and any other element is
appended after a slash.  The state is the buffer `out` (its length is `out.w`)
and the index `dotdot`. -/
def cleanElem (rooted : Bool) (st : Str × Nat) (e : Str) : Str × Nat :=
  if e = [] then st
  else if e = ['.'] then st
  else if e = ['.', '.'] then
    if st.1.length > st.2 then
      (st.1.take (backtrack st.1 st.2 (st.1.length - 1)), st.2)
    else if rooted = false then
      let o := (if st.1.length > 0 then st.1 ++ ['/'] else st.1) ++ ['.', '.']
      (o, o.length)
    else st
  else
    ((if (rooted = true ∧ st.1.length ≠ 1) ∨ (rooted = false ∧ st.1.length ≠ 0)
        then st.1 ++ ['/'] else st.1) ++ e, st.2)

/-- Buffer and `dotdot` index `path.Clean` starts its loop with. -/
def cleanInit (rooted : Bool) : Str × Nat := if rooted then (['/'], 1) else ([], 0)

/-- The loop `for r < n` of `path.Clean` on the path after its root: one round
for each of its slash-separated elements. -/
def cleanLoop (rooted : Bool) (body : Str) : Str × Nat :=
  (stringsSplit '/' body).foldl (cleanElem rooted) (cleanInit rooted)

/-- `path.Clean`: the shortest path equivalent to `p` by lexical processing. -/
def pathClean (p : Str) : Str :=
  if p = [] then ['.']
  else
    let rooted : Bool := decide (p.head? = some '/')
    let out := (cleanLoop rooted (if rooted then p.tail else p)).1
    if out.length = 0 then ['.'] else out

/-- `path.Join`: empty elements are ignored, the others are joined by slashes
and the result is cleaned; all elements empty gives the empty string. -/
def pathJoin (elem : List Str) : Str :=
  let es := elem.filter (fun e => decide (e ≠ []))
  if es = [] then [] else pathClean (List.intercalate ['/'] es)

/-- `path.Base`: the last element of the path, trailing slashes removed first. -/
def pathBase (p : Str) : Str :=
  if p = [] then ['.']
  else
    let p1 := (p.reverse.dropWhile (fun c => decide (c = '/'))).reverse
    let p2 := (p1.reverse.takeWhile (fun c => decide (c ≠ '/'))).reverse
    if p2 = [] then ['/'] else p2

/-- `path.Dir`: all but the last element of the path, cleaned. -/
def pathDir (p : Str) : Str :=
  pathClean (p.reverse.dropWhile (fun c => decide (c ≠ '/'))).reverse

/-- Decimal digit `d % 10` as a character. -/
def digitChar (d : Nat) : Char := Char.ofNat (48 + d % 10)

/-- Decimal digits of `n`, least significant first, with `fuel` rounds. -/
def digitsRev : Nat → Nat → Str
  | 0, _ => []
  | fuel + 1, n => digitChar n :: (if n / 10 = 0 then [] else digitsRev fuel (n / 10))

/-- Decimal form of a natural number. -/
def utoa (n : Nat) : Str := (digitsRev (n + 1) n).reverse

/-- The verb `%d` on an `int`. -/
def itoa (i : Int) : Str := if i < 0 then '-' :: utoa i.natAbs else utoa i.natAbs

/-- The helper `appendInt` of package `time`: decimal form padded with zeros to `width`. -/
def appendInt (n width : Nat) : Str :=
  List.replicate (width - (utoa n).length) '0' ++ utoa n

/-- Broken-down UTC time, as `time.Now().UTC()` returns it. -/
structure Time where
  year : Nat
  month : Nat
  day : Nat
  hour : Nat
  minute : Nat
  second : Nat
  deriving DecidableEq, Repr

/-- The ranges of the fields of a broken-down time with a four-digit year. -/
def Time.Valid (t : Time) : Prop :=
  t.year < 10000 ∧ 1 ≤ t.month ∧ t.month ≤ 12 ∧ 1 ≤ t.day ∧ t.day ≤ 31 ∧
    t.hour < 24 ∧ t.minute < 60 ∧ t.second < 60

instance (t : Time) : Decidable t.Valid := by
  unfold Time.Valid
  infer_instance

/-- `t.Format("20060102150405")`. -/
def formatTimestamp (t : Time) : Str :=
  appendInt t.year 4 ++ appendInt t.month 2 ++ appendInt t.day 2 ++
    appendInt t.hour 2 ++ appendInt t.minute 2 ++ appendInt t.second 2

/-- The tail `%!(EXTRA string=a, string=b)` that `fmt` adds for unused operands. -/
def extraArgs (args : List Str) : Str :=
  "%!(EXTRA ".toList ++
    List.intercalate ", ".toList (args.map (fun a => "string=".toList ++ a)) ++ [')']

/-- `fmt.Sprintf` on string operands.  Embedded: plain text, `%s`, `%%`, a
missing operand, a lone `%` at the end and unused operands.  Every other
directive is handed, with the format after its `%` and the operands left, to
`ext`, which stands for the rest of package `fmt`. -/
def sprintf (ext : Str → List Str → Str) : Str → List Str → Str
  | [], [] => []
  | [], a :: as => extraArgs (a :: as)
  | '%' :: 's' :: f, a :: as => a ++ sprintf ext f as
  | '%' :: 's' :: f, [] => "%!s(MISSING)".toList ++ sprintf ext f []
  | '%' :: '%' :: f, as => '%' :: sprintf ext f as
  | ['%'], [] => "%!(NOVERB)".toList
  | ['%'], a :: as => "%!(NOVERB)".toList ++ extraArgs (a :: as)
  | '%' :: c :: f, as => ext (c :: f) as
  | c :: f, as => c :: sprintf ext f as
/-! ## The program -/

/-- One byte of the coredump stream. -/
abbrev Byte := Fin 256

/-- What `ContainerInspect` returns, as far as the program reads it:
`container.Name` and `container.Config.Labels`. -/
structure Container where
  name : Str
  labels : List (Str × Str)
  deriving DecidableEq

/-- Two-value map index `v, ok := m[key]`. -/
def labelLookup (labels : List (Str × Str)) (key : Str) : Option Str :=
  (labels.find? (fun kv => decide (kv.1 = key))).map Prod.snd

/-- One-value map index `m[key]`: the empty string for an absent key. -/
def labelValue (labels : List (Str × Str)) (key : Str) : Str :=
  (labelLookup labels key).getD []

/-- Flags and surroundings of one run.  A call that can return an error is an
`Option` (value) or a `Bool` (success). -/
structure Env where
  /-- flag `-pid` -/
  pid : Int
  /-- flag `-hdfs` -/
  hdfsNamenode : Str
  /-- flag `-fallback-path` -/
  fallbackPath : Str
  /-- flag `-prefix` -/
  pfx : Str
  /-- flag `-no-fallback` -/
  noFallback : Bool
  /-- `syslog.NewLogger` succeeds -/
  syslogNewLogger : Bool
  /-- `time.Now().UTC()` -/
  now : Time
  /-- `ioutil.ReadFile` -/
  readFile : Str → Option Str
  /-- `os.Hostname` -/
  hostname : Option Str
  /-- `client.NewEnvClient` succeeds -/
  dockerClient : Bool
  /-- `docker.ContainerInspect` -/
  containerInspect : Str → Option Container
  /-- `hdfs.NewForUser` succeeds for the namenode -/
  hdfsNewForUser : Str → Bool
  /-- `hdfsClient.MkdirAll` succeeds -/
  hdfsMkdirAll : Str → Bool
  /-- `hdfsClient.Create` succeeds -/
  hdfsCreate : Str → Bool
  /-- `os.MkdirAll` succeeds -/
  osMkdirAll : Str → Bool
  /-- `os.Create` succeeds -/
  osCreate : Str → Bool
  /-- directives of `fmt.Sprintf` outside the embedded fragment -/
  fmtExt : Str → List Str → Str

/-- What a run can change: standard input still unread, and the directories
and files of the local filesystem and of HDFS (newest first). -/
structure World where
  stdin : List Byte
  localDirs : List Str
  localFiles : List (Str × List Byte)
  hdfsDirs : List Str
  hdfsFiles : List (Str × List Byte)

/-- How a run of `main` ends. -/
inductive Outcome where
  /-- a `panic` aborted the run -/
  | panicked (w : World)
  /-- `main` returned -/
  | returned (w : World)

/-- The world a run ends in. -/
def Outcome.world : Outcome → World
  | Outcome.panicked w => w
  | Outcome.returned w => w

/-- Whether the run was aborted by a panic. -/
def Outcome.aborted : Outcome → Bool
  | Outcome.panicked _ => true
  | Outcome.returned _ => false

/-- Content of the file at `p`, if there is one. -/
def fileAt (files : List (Str × List Byte)) (p : Str) : Option (List Byte) :=
  (files.find? (fun f => decide (f.1 = p))).map Prod.snd

/-- `fmt.Sprintf("/proc/%d/<name>", pid)`. -/
def procFile (pid : Int) (name : Str) : Str :=
  "/proc/".toList ++ itoa pid ++ ['/'] ++ name

/-- The format `path.Join(*prefix, "%s-%s-%s.core")`. -/
def mainPathFmt (pfx : Str) : Str := pathJoin [pfx, "%s-%s-%s.core".toList]

/-- The value of `hostname, _ := os.Hostname()`: empty when the lookup fails. -/
def hostnameOrEmpty (env : Env) : Str := env.hostname.getD []

/-- Function `writeToSystemPath`, main.go lines 74-82. -/
def writeToSystemPath (env : Env) (storagePath : Str) (w : World) : World :=
  let coreFile := pathJoin [env.fallbackPath, storagePath]
  let w1 : World :=
    if env.osMkdirAll (pathDir coreFile) then
      { w with localDirs := pathDir coreFile :: w.localDirs }
    else w
  if env.osCreate coreFile then
    { w1 with localFiles := (coreFile, w1.stdin) :: w1.localFiles, stdin := [] }
  else w1

/-- Function `buildStandardPath`, main.go lines 84-94. -/
def buildStandardPath (env : Env) : Str :=
  let timeStmp := formatTimestamp env.now
  let hostname := hostnameOrEmpty env
  match env.readFile (procFile env.pid "cmdline".toList) with
  | none =>
    sprintf env.fmtExt (mainPathFmt env.pfx) [timeStmp, hostname, "pid-".toList ++ itoa env.pid]
  | some cmdline =>
    let cmd := (stringsSplit (Char.ofNat 0) cmdline).headD []
    sprintf env.fmtExt (mainPathFmt env.pfx) [timeStmp, hostname, pathBase cmd]

/-- Function `buildDockerPath`, main.go lines 96-121; `none` is a panic. -/
def buildDockerPath (env : Env) (id : Str) : Option Str :=
  if env.dockerClient = false then none
  else
    match env.containerInspect id with
    | none => none
    | some container =>
      let timeStmp := formatTimestamp env.now
      match labelLookup container.labels "io.kubernetes.pod.name".toList with
      | some podName =>
        let containerName := labelValue container.labels "io.kubernetes.container.name".toList
        some (sprintf env.fmtExt (mainPathFmt env.pfx) [timeStmp, podName, containerName])
      | none =>
        some (sprintf env.fmtExt (mainPathFmt env.pfx)
          [timeStmp, hostnameOrEmpty env, container.name])

/-- The branch `main` takes at lines 48-52. -/
inductive Variant where
  /-- `buildStandardPath()` -/
  | standard
  /-- `buildDockerPath(match[1])` -/
  | docker (id : Str)
  deriving DecidableEq, Repr

/-- The test of `len(match) == 0` on the match of `cgroup`, main.go lines 46-52. -/
def selectVariant (cgroups : Str) : Variant :=
  let m := findStringSubmatch cgroup cgroups
  if m.length = 0 then Variant.standard else Variant.docker (m.getD 1 [])

/-- The storage path of the selected variant; `none` is a panic. -/
def storagePathFor (env : Env) (cgroups : Str) : Option Str :=
  match selectVariant cgroups with
  | Variant.standard => some (buildStandardPath env)
  | Variant.docker id => buildDockerPath env id

/-- The writers, main.go lines 54-71. -/
def writeDump (env : Env) (storagePath : Str) (w : World) : World :=
  if env.hdfsNewForUser env.hdfsNamenode = false then writeToSystemPath env storagePath w
  else
    let w1 : World :=
      if env.hdfsMkdirAll (pathDir storagePath) then
        { w with hdfsDirs := pathDir storagePath :: w.hdfsDirs }
      else w
    if env.hdfsCreate storagePath = false then writeToSystemPath env storagePath w1
    else { w1 with hdfsFiles := (storagePath, w1.stdin) :: w1.hdfsFiles, stdin := [] }

/-- Function `main`, main.go lines 38-72 (the log lines apart). -/
def main (env : Env) (w : World) : Outcome :=
  match env.readFile (procFile env.pid "cgroup".toList) with
  | none => Outcome.panicked w
  | some cgroups =>
    match storagePathFor env cgroups with
    | none => Outcome.panicked w
    | some storagePath => Outcome.returned (writeDump env storagePath w)

/-- Function `setupLogging`, main.go lines 30-36: `false` is its `panic(err)`,
taken when `syslog.NewLogger` returns an error. -/
def setupLogging (env : Env) : Bool := env.syslogNewLogger

/-- One run of the program: the package-level `var logger = setupLogging()`,
main.go line 28, is initialised first, then `main` runs. -/
def run (env : Env) (w : World) : Outcome :=
  if setupLogging env = false then Outcome.panicked w else main env w

/-! ## Vocabulary of the statements -/

/-- `docker/` occurs in `s` before the first newline of `s`. -/
def FirstLineHas (s : Str) : Prop := ∃ q m, s = q ++ dockerLit ++ m ∧ '\n' ∉ q

/-- What the loop of `path.Clean` keeps true of its state: a rooted path keeps
its leading slash with `dotdot` at 1, and every character of the buffer has
the property `P`. -/
def CleanInv (P : Char → Prop) (rooted : Bool) (st : Str × Nat) : Prop :=
  (rooted = true → st.2 = 1 ∧ ∃ o, st.1 = '/' :: o) ∧ ∀ c ∈ st.1, P c

/-- Value of a decimal digit character. -/
def digitVal (c : Char) : Nat := c.toNat - 48

/-- The number a string of decimal digits stands for. -/
def decodeDec (s : Str) : Nat := s.foldl (fun acc c => 10 * acc + digitVal c) 0

/-- Fourteen decimal digits, the form `YYYYMMDDHHMMSS`. -/
def IsTimestamp (ts : Str) : Prop := ts.length = 14 ∧ ∀ c ∈ ts, c.isDigit = true

/-- The shape `<dir><14 digits>-<host>-<proc>.core` with both identifiers non-empty. -/
def CoreShape (dir path : Str) : Prop :=
  ∃ ts host proc, IsTimestamp ts ∧ host ≠ [] ∧ proc ≠ [] ∧
    path = dir ++ ts ++ '-' :: host ++ '-' :: proc ++ ".core".toList

/-- The path `p` is the directory `root` or lies below it. -/
def InsideDir (root p : Str) : Prop :=
  ∃ s, p = root ++ s ∧ (s = [] ∨ (∃ r, s = '/' :: r) ∨ ∃ d, root = d ++ ['/'])

/-! ## Sample runs -/

/-- A bare process: pid 1234 runs `/usr/bin/myapp` on `host1`, HDFS is unreachable. -/
def bareEnv : Env where
  pid := 1234
  hdfsNamenode := "namenode:8020".toList
  fallbackPath := "/tmp/".toList
  pfx := "/coredumps/".toList
  noFallback := false
  syslogNewLogger := true
  now := ⟨2024, 1, 2, 3, 4, 5⟩
  readFile := fun p =>
    if p = "/proc/1234/cgroup".toList then some "1:name=systemd:/user.slice\n".toList
    else if p = "/proc/1234/cmdline".toList then
      some ("/usr/bin/myapp".toList ++ [Char.ofNat 0] ++ "--verbose".toList ++ [Char.ofNat 0])
    else none
  hostname := some "host1".toList
  dockerClient := true
  containerInspect := fun _ => none
  hdfsNewForUser := fun _ => false
  hdfsMkdirAll := fun _ => false
  hdfsCreate := fun _ => false
  osMkdirAll := fun _ => true
  osCreate := fun _ => true
  fmtExt := fun _ _ => []

/-- The run of `bareEnv` when `/proc/1234/cmdline` cannot be read. -/
def goneEnv : Env :=
  { bareEnv with
    readFile := fun p =>
      if p = "/proc/1234/cgroup".toList then some "1:name=systemd:/user.slice\n".toList
      else none }

/-- The run of `bareEnv` when the hostname lookup fails. -/
def namelessEnv : Env := { bareEnv with hostname := none }

/-- The run of `bareEnv` with the flag `-no-fallback`. -/
def noFallbackEnv : Env := { bareEnv with noFallback := true }

/-- What the runtime reports of container `abcdef`. -/
def podContainer : Container where
  name := "/k8s_nginx_web-7".toList
  labels := [("io.kubernetes.container.name".toList, "nginx".toList),
             ("io.kubernetes.pod.name".toList, "web-7".toList)]

/-- A container of a pod: pid 5678 in container `abcdef`, labelled by the orchestrator. -/
def podEnv : Env :=
  { bareEnv with
    pid := 5678
    readFile := fun p =>
      if p = "/proc/5678/cgroup".toList then some "4:cpu:/docker/abcdef\n".toList else none
    containerInspect := fun id =>
      if id = "abcdef".toList then some podContainer else none }

/-- The run of `podEnv` when the workload has chosen a pod name with `..` elements. -/
def escapeEnv : Env :=
  { podEnv with
    containerInspect := fun id =>
      if id = "abcdef".toList then
        some { name := "/k8s_nginx_web-7".toList,
               labels := [("io.kubernetes.container.name".toList, "nginx".toList),
                          ("io.kubernetes.pod.name".toList, "x/../../../etc/cron.d/y".toList)] }
      else none }

/-- The run of `bareEnv` on a machine whose syslog cannot be reached. -/
def syslogDownEnv : Env := { bareEnv with syslogNewLogger := false }

/-- The run of `bareEnv` with the flag `-prefix=/%s/`. -/
def percentEnv : Env := { bareEnv with pfx := "/%s/".toList }

/-- The run of `goneEnv` with the flag `-prefix=/%s/`. -/
def percentGoneEnv : Env := { goneEnv with pfx := "/%s/".toList }

/-- The run of `podEnv` with the flag `-prefix=/%s/`. -/
def percentPodEnv : Env := { podEnv with pfx := "/%s/".toList }

/-- The world before a run: three bytes wait on standard input. -/
def world0 : World where
  stdin := [127, 69, 76]
  localDirs := []
  localFiles := []
  hdfsDirs := []
  hdfsFiles := []

/-! ## The pattern `cgroup` -/

theorem matchHere_lit_cons (c : Char) (k : List Item) (pos : Nat) (x : Char) (t : Str)
    (cap : Nat × Nat) :
    matchHere (Item.lit c :: k) pos (x :: t) cap =
      if x = c then matchHere k (pos + 1) t cap else none := rfl

theorem matchHere_lit_nil (c : Char) (k : List Item) (pos : Nat) (cap : Nat × Nat) :
    matchHere (Item.lit c :: k) pos [] cap = none := rfl

theorem matchHere_dotStar (k : List Item) (pos : Nat) (s : Str) (cap : Nat × Nat) :
    matchHere (Item.dotStar :: k) pos s cap =
      starLoop (fun p r => matchHere k p r cap) pos s := rfl

theorem matchHere_lits (lits : Str) (k : List Item) (pos : Nat) (s : Str) (cap : Nat × Nat) :
    matchHere (lits.map Item.lit ++ k) pos (lits ++ s) cap =
      matchHere k (pos + lits.length) s cap := by
  induction lits generalizing pos with
  | nil => simp
  | cons c cs ih =>
    have e : matchHere ((c :: cs).map Item.lit ++ k) pos ((c :: cs) ++ s) cap =
        matchHere (cs.map Item.lit ++ k) (pos + 1) (cs ++ s) cap := by
      simp [matchHere_lit_cons]
    rw [e, ih, List.length_cons]
    congr 1
    omega

theorem matchHere_lits_none (lits : Str) (k : List Item) (pos : Nat) (s : Str) (cap : Nat × Nat)
    (h : ¬ lits <+: s) : matchHere (lits.map Item.lit ++ k) pos s cap = none := by
  induction lits generalizing pos s with
  | nil => exact absurd (List.nil_prefix) h
  | cons c cs ih =>
    cases s with
    | nil => simp [matchHere_lit_nil]
    | cons x t =>
      simp only [List.map_cons, List.cons_append, matchHere_lit_cons]
      split
      · rename_i hx
        subst hx
        apply ih
        intro hp
        exact h ((List.prefix_cons_inj x).mpr hp)
      · rfl

theorem starLoop_close (a pos : Nat) (s : Str) :
    starLoop (fun p _ => some (p, a, p)) pos s =
      some (pos + (s.takeWhile (fun c => decide (c ≠ '\n'))).length, a,
        pos + (s.takeWhile (fun c => decide (c ≠ '\n'))).length) := by
  induction s generalizing pos with
  | nil => simp [starLoop]
  | cons x t ih =>
    by_cases hx : x = '\n'
    · simp [starLoop, hx]
    · simp only [starLoop, ne_eq, hx, not_false_eq_true, if_true, ih, List.takeWhile_cons,
        decide_True, List.length_cons]
      have e : pos + 1 + (List.takeWhile (fun c => decide (¬ c = '\n')) t).length =
          pos + ((List.takeWhile (fun c => decide (¬ c = '\n')) t).length + 1) := by omega
      rw [e]

theorem matchHere_group (pos : Nat) (s : Str) (cap : Nat × Nat) :
    matchHere [Item.capOpen, Item.dotStar, Item.capClose] pos s cap =
      some (pos + (s.takeWhile (fun c => decide (c ≠ '\n'))).length, pos,
        pos + (s.takeWhile (fun c => decide (c ≠ '\n'))).length) := by
  simp only [matchHere]
  exact starLoop_close pos pos s

theorem matchHere_tail (pos : Nat) (s : Str) (cap : Nat × Nat) :
    matchHere cgroupTail pos (dockerLit ++ s) cap =
      some (pos + 7 + (s.takeWhile (fun c => decide (c ≠ '\n'))).length, pos + 7,
        pos + 7 + (s.takeWhile (fun c => decide (c ≠ '\n'))).length) := by
  unfold cgroupTail
  rw [matchHere_lits, matchHere_group]
  rfl

theorem matchHere_tail_none (pos : Nat) (s : Str) (cap : Nat × Nat) (h : ¬ dockerLit <+: s) :
    matchHere cgroupTail pos s cap = none :=
  matchHere_lits_none dockerLit _ pos s cap h

theorem matchHere_tail_some (pos : Nat) (s : Str) (cap : Nat × Nat) (r : MatchPos)
    (h : matchHere cgroupTail pos s cap = some r) : dockerLit <+: s := by
  by_contra hn
  rw [matchHere_tail_none pos s cap hn] at h
  exact Option.noConfusion h

theorem matchHere_cgroup (pos : Nat) (s : Str) (cap : Nat × Nat) :
    matchHere cgroup pos s cap =
      starLoop (fun p r => matchHere cgroupTail p r cap) pos s := rfl

theorem starLoop_nil (cont : Nat → Str → Option MatchPos) (pos : Nat) :
    starLoop cont pos [] = cont pos [] := rfl

theorem starLoop_cons (cont : Nat → Str → Option MatchPos) (pos : Nat) (x : Char) (t : Str) :
    starLoop cont pos (x :: t) =
      if x ≠ '\n' then
        match starLoop cont (pos + 1) t with
        | some r => some r
        | none => cont pos (x :: t)
      else cont pos (x :: t) := rfl

theorem firstLineHas_of_pfx (s : Str) (h : dockerLit <+: s) : FirstLineHas s := by
  obtain ⟨m, hm⟩ := h
  exact ⟨[], m, by simpa using hm.symm, by simp⟩

theorem cgroup_some_firstLine (pos : Nat) (s : Str) (cap : Nat × Nat) (r : MatchPos)
    (h : matchHere cgroup pos s cap = some r) : FirstLineHas s := by
  rw [matchHere_cgroup] at h
  induction s generalizing pos r with
  | nil =>
    rw [starLoop_nil] at h
    exact firstLineHas_of_pfx _ (matchHere_tail_some _ _ _ _ h)
  | cons x t ih =>
    rw [starLoop_cons] at h
    split at h
    · rename_i hx
      split at h
      · rename_i r' hr'
        obtain ⟨q, m, hq, hn⟩ := ih (pos + 1) r' hr'
        refine ⟨x :: q, m, by simp [hq], ?_⟩
        simp only [List.mem_cons, not_or]
        exact ⟨fun e => hx e.symm, hn⟩
      · exact firstLineHas_of_pfx _ (matchHere_tail_some _ _ _ _ h)
    · exact firstLineHas_of_pfx _ (matchHere_tail_some _ _ _ _ h)

theorem nl_not_mem_dockerLit : '\n' ∉ dockerLit := by decide

theorem takeWhile_line (l rest : Str) (hl : '\n' ∉ l) (hr : rest = [] ∨ rest.head? = some '\n') :
    ((l ++ rest).takeWhile (fun c => decide (c ≠ '\n'))).length = l.length := by
  induction l with
  | nil =>
    rcases hr with rfl | hr
    · simp
    · cases rest with
      | nil => simp
      | cons x t =>
        simp only [List.head?_cons, Option.some.injEq] at hr
        simp [hr]
  | cons x t ih =>
    simp only [List.mem_cons, not_or] at hl
    have hx : x ≠ '\n' := fun e => hl.1 e.symm
    simpa [hx] using ih hl.2

/-- An occurrence that starts before the first newline of `l ++ rest` and has
no newline lies in the line `l`. -/
theorem occurrence_in_line (l rest u m : Str)
    (hr : rest = [] ∨ rest.head? = some '\n') (hu : '\n' ∉ u) (h : l ++ rest = u ++ m) :
    ∃ c, l = u ++ c := by
  rcases List.append_eq_append_iff.mp h with ⟨a, ha, hrest⟩ | ⟨c, hc, _⟩
  · cases a with
    | nil => exact ⟨[], by simpa using ha.symm⟩
    | cons y a' =>
      exfalso
      rcases hr with rfl | hr
      · simp at hrest
      · rw [hrest] at hr
        simp only [List.cons_append, List.head?_cons, Option.some.injEq] at hr
        subst hr
        exact hu (by simp [ha])
  · exact ⟨c, hc⟩

theorem cgroup_line (pos : Nat) (p tl : Str) (cap : Nat × Nat) (hp : '\n' ∉ p)
    (hmax : ∀ q m, '\n' ∉ q → p ++ dockerLit ++ tl = q ++ dockerLit ++ m → q.length ≤ p.length) :
    matchHere cgroup pos (p ++ dockerLit ++ tl) cap =
      some (pos + p.length + 7 + (tl.takeWhile (fun c => decide (c ≠ '\n'))).length,
        pos + p.length + 7,
        pos + p.length + 7 + (tl.takeWhile (fun c => decide (c ≠ '\n'))).length) := by
  induction p generalizing pos with
  | nil =>
    have hnone : matchHere cgroup (pos + 1) (dockerLit.tail ++ tl) cap = none := by
      cases hm : matchHere cgroup (pos + 1) (dockerLit.tail ++ tl) cap with
      | none => rfl
      | some r =>
        obtain ⟨q, m, hq, hn⟩ := cgroup_some_firstLine _ _ _ _ hm
        have hle := hmax ('d' :: q) m (by
          simp only [List.mem_cons, not_or]
          exact ⟨by decide, hn⟩) (by
          have : ([] : Str) ++ dockerLit ++ tl = 'd' :: (dockerLit.tail ++ tl) := rfl
          rw [this, hq]
          simp)
        simp at hle
    rw [matchHere_cgroup] at hnone ⊢
    have e : ([] : Str) ++ dockerLit ++ tl = 'd' :: (dockerLit.tail ++ tl) := rfl
    rw [e, starLoop_cons, if_pos (by decide), hnone]
    have e2 : 'd' :: (dockerLit.tail ++ tl) = dockerLit ++ tl := rfl
    simp only [e2, matchHere_tail, List.length_nil, Nat.add_zero]
  | cons x t ih =>
    simp only [List.mem_cons, not_or] at hp
    have hx : x ≠ '\n' := fun e => hp.1 e.symm
    have hmax2 : ∀ q m, '\n' ∉ q → t ++ dockerLit ++ tl = q ++ dockerLit ++ m →
        q.length ≤ t.length := by
      intro q m hq he
      have := hmax (x :: q) m (by
        simp only [List.mem_cons, not_or]
        exact ⟨fun e => hx e.symm, hq⟩) (by simp [he])
      simpa using this
    have h1 := ih (pos + 1) hp.2 hmax2
    rw [matchHere_cgroup] at h1 ⊢
    have e : (x :: t) ++ dockerLit ++ tl = x :: (t ++ dockerLit ++ tl) := rfl
    rw [e, starLoop_cons, if_pos hx, h1]
    simp only [List.length_cons]
    have a1 : pos + 1 + t.length = pos + (t.length + 1) := by omega
    rw [a1]

theorem cgroup_none (pos : Nat) (s : Str) (cap : Nat × Nat) (h : ¬ FirstLineHas s) :
    matchHere cgroup pos s cap = none := by
  cases hm : matchHere cgroup pos s cap with
  | none => rfl
  | some r => exact absurd (cgroup_some_firstLine _ _ _ _ hm) h

theorem findFrom_nil (items : List Item) (pos : Nat) :
    findFrom items pos [] = (matchHere items pos [] (0, 0)).map (fun r => (pos, r)) := rfl

theorem findFrom_cons (items : List Item) (pos : Nat) (x : Char) (t : Str) :
    findFrom items pos (x :: t) =
      match matchHere items pos (x :: t) (0, 0) with
      | some r => some (pos, r)
      | none => findFrom items (pos + 1) t := rfl

theorem findFrom_none (pos : Nat) (s : Str) (h : ¬ dockerLit <:+: s) :
    findFrom cgroup pos s = none := by
  induction s generalizing pos with
  | nil =>
    rw [findFrom_nil, cgroup_none]
    · rfl
    · rintro ⟨q, m, hq, -⟩
      exact h ⟨q, m, hq.symm⟩
  | cons x t ih =>
    rw [findFrom_cons, cgroup_none]
    · exact ih (pos + 1) (fun hi => h (hi.trans (List.suffix_cons x t).isInfix))
    · rintro ⟨q, m, hq, -⟩
      exact h ⟨q, m, hq.symm⟩

theorem findFrom_skip (pos : Nat) (pre s : Str) (r : MatchPos)
    (hpre : ∀ v, v <:+ pre → v ≠ [] → ¬ FirstLineHas (v ++ s))
    (hs : matchHere cgroup (pos + pre.length) s (0, 0) = some r) :
    findFrom cgroup pos (pre ++ s) = some (pos + pre.length, r) := by
  induction pre generalizing pos with
  | nil =>
    simp only [List.nil_append, List.length_nil, Nat.add_zero] at hs ⊢
    cases s with
    | nil => rw [findFrom_nil, hs]; rfl
    | cons x t => rw [findFrom_cons, hs]
  | cons x t ih =>
    have e : (x :: t) ++ s = x :: (t ++ s) := rfl
    have hno : ¬ FirstLineHas (x :: (t ++ s)) := hpre (x :: t) (List.suffix_refl _) (by simp)
    rw [e, findFrom_cons, cgroup_none _ _ _ hno]
    have h1 := ih (pos + 1) (fun v hv hne => hpre v (hv.trans (List.suffix_cons x t)) hne)
      (by rw [← hs]; congr 1; simp only [List.length_cons]; omega)
    rw [h1]
    simp only [List.length_cons]
    have a1 : pos + 1 + t.length = pos + (t.length + 1) := by omega
    rw [a1]

theorem line_split (s : Str) :
    ∃ l rest, s = l ++ rest ∧ '\n' ∉ l ∧ (rest = [] ∨ ∃ r, rest = '\n' :: r) := by
  induction s with
  | nil => exact ⟨[], [], rfl, by simp, Or.inl rfl⟩
  | cons x t ih =>
    by_cases hx : x = '\n'
    · exact ⟨[], x :: t, rfl, by simp, Or.inr ⟨t, by rw [hx]⟩⟩
    · obtain ⟨l, rest, h1, h2, h3⟩ := ih
      refine ⟨x :: l, rest, by simp [h1], ?_, h3⟩
      simp only [List.mem_cons, not_or]
      exact ⟨fun e => hx e.symm, h2⟩

theorem infix_of_newline_split (u a b : Str) (hu : '\n' ∉ u) (h : u <:+: a ++ '\n' :: b) :
    u <:+: a ∨ u <:+: b := by
  obtain ⟨s1, s2, hs⟩ := h
  have hs' : a ++ '\n' :: b = (s1 ++ u) ++ s2 := hs.symm
  rcases List.append_eq_append_iff.mp hs' with ⟨a', ha, hb⟩ | ⟨c, hc, _⟩
  · cases a' with
    | nil => exact Or.inl ⟨s1, [], by simpa using ha⟩
    | cons y a'' =>
      simp only [List.cons_append, List.cons.injEq] at hb
      obtain ⟨rfl, hb⟩ := hb
      rcases List.append_eq_append_iff.mp ha with ⟨d, hd, hd2⟩ | ⟨d, hd, hd2⟩
      · exfalso
        apply hu
        rw [hd2]
        simp
      · cases d with
        | nil =>
          exfalso
          apply hu
          simp only [List.nil_append] at hd2
          rw [← hd2]
          simp
        | cons z d' =>
          simp only [List.cons_append, List.cons.injEq] at hd2
          right
          exact ⟨d', s2, by rw [hb, hd2.2]⟩
  · exact Or.inl ⟨s1, c, hc.symm⟩

theorem last_occurrence (l : Str) (h : dockerLit <:+: l) :
    ∃ p id, l = p ++ dockerLit ++ id ∧
      ∀ q m, l = q ++ dockerLit ++ m → q.length ≤ p.length := by
  induction l with
  | nil =>
    exfalso
    have := List.eq_nil_of_infix_nil h
    exact absurd this (by decide)
  | cons x t ih =>
    by_cases ht : dockerLit <:+: t
    · obtain ⟨p, id, hp, hmax⟩ := ih ht
      refine ⟨x :: p, id, by simp [hp], ?_⟩
      intro q m hq
      cases q with
      | nil => simp
      | cons y q' =>
        simp only [List.cons_append, List.cons.injEq] at hq
        have := hmax q' m (by simpa using hq.2)
        simpa using this
    · have hpre : dockerLit <+: x :: t := by
        obtain ⟨s1, s2, hs⟩ := h
        cases s1 with
        | nil => exact ⟨s2, by simpa using hs⟩
        | cons y s1' =>
          exfalso
          simp only [List.cons_append, List.cons.injEq] at hs
          exact ht ⟨s1', s2, by simpa using hs.2⟩
      obtain ⟨id, hid⟩ := hpre
      refine ⟨[], id, by simpa using hid.symm, ?_⟩
      intro q m hq
      cases q with
      | nil => simp
      | cons y q' =>
        exfalso
        simp only [List.cons_append, List.cons.injEq] at hq
        exact ht ⟨q', m, by simpa using hq.2.symm⟩

/-- The first line with `docker/`: the lines before it, the line, the rest. -/
theorem first_docker_line (n : Nat) (text : Str) (hn : text.length ≤ n)
    (h : dockerLit <:+: text) :
    ∃ pre l rest, text = pre ++ l ++ rest ∧ (pre = [] ∨ ∃ u, pre = u ++ ['\n']) ∧
      ¬ dockerLit <:+: pre ∧ '\n' ∉ l ∧ (rest = [] ∨ ∃ r, rest = '\n' :: r) ∧
      dockerLit <:+: l := by
  induction n generalizing text with
  | zero =>
    exfalso
    have : text = [] := List.length_eq_zero.mp (Nat.le_zero.mp hn)
    subst this
    exact absurd (List.eq_nil_of_infix_nil h) (by decide)
  | succ n ih =>
    obtain ⟨l, rest, h1, h2, h3⟩ := line_split text
    by_cases hl : dockerLit <:+: l
    · exact ⟨[], l, rest, by simpa using h1, Or.inl rfl, by
        intro hi
        exact absurd (List.eq_nil_of_infix_nil hi) (by decide), h2, h3, hl⟩
    · rcases h3 with rfl | ⟨r, rfl⟩
      · exfalso
        apply hl
        simpa [h1] using h
      · have hr : dockerLit <:+: r := by
          rw [h1] at h
          rcases infix_of_newline_split _ _ _ nl_not_mem_dockerLit h with h' | h'
          · exact absurd h' hl
          · exact h'
        have hlen : r.length ≤ n := by
          have : text.length = l.length + (r.length + 1) := by rw [h1]; simp
          omega
        obtain ⟨pre, l', rest', e1, e2, e3, e4, e5, e6⟩ := ih r hlen hr
        refine ⟨l ++ '\n' :: pre, l', rest', by rw [h1, e1]; simp, ?_, ?_, e4, e5, e6⟩
        · right
          rcases e2 with rfl | ⟨u, rfl⟩
          · exact ⟨l, rfl⟩
          · exact ⟨l ++ '\n' :: u, by simp⟩
        · intro hi
          rcases infix_of_newline_split _ _ _ nl_not_mem_dockerLit hi with h' | h'
          · exact hl h'
          · exact e3 h'

theorem slice_mid (a mid b : Str) (i j : Nat) (hi : i = a.length)
    (hj : j = a.length + mid.length) : slice (a ++ mid ++ b) i j = mid := by
  subst hi hj
  unfold slice
  rw [List.append_assoc, List.drop_left]
  simp

theorem no_firstLine_of_suffix (pre s v : Str) (hpre : pre = [] ∨ ∃ u, pre = u ++ ['\n'])
    (hno : ¬ dockerLit <:+: pre) (hv : v <:+ pre) (hne : v ≠ []) :
    ¬ FirstLineHas (v ++ s) := by
  rintro ⟨q, m, hq, hqn⟩
  rcases hpre with rfl | ⟨u, rfl⟩
  · exact hne (List.eq_nil_of_suffix_nil hv)
  · obtain ⟨w, hw⟩ := hv
    rcases List.eq_nil_or_concat v with hv0 | ⟨v', b, rfl⟩
    · exact hne hv0
    · have hb : b = '\n' := by
        have h1 : (w ++ v') ++ [b] = u ++ ['\n'] := by
          simpa [List.concat_eq_append] using hw
        have := List.append_inj_right' h1 rfl
        simpa using this
      subst hb
      have hq' : v' ++ ('\n' :: s) = (q ++ dockerLit) ++ m := by
        simpa [List.concat_eq_append] using hq
      obtain ⟨c, hc⟩ := occurrence_in_line v' ('\n' :: s) (q ++ dockerLit) m
        (Or.inr rfl) (by
          simp only [List.mem_append, not_or]
          exact ⟨hqn, nl_not_mem_dockerLit⟩) hq'
      apply hno
      refine ⟨w ++ q, c ++ ['\n'], ?_⟩
      have : w ++ v'.concat '\n' = u ++ ['\n'] := hw
      rw [← this, List.concat_eq_append, hc]
      simp

/-- What `FindStringSubmatch` returns on a text cut at its first line with
`docker/` and, on that line, at the last `docker/`. -/
theorem findStringSubmatch_decomp (pre p id rest : Str)
    (hpre : pre = [] ∨ ∃ u, pre = u ++ ['\n']) (hno : ¬ dockerLit <:+: pre)
    (hp : '\n' ∉ p) (hid : '\n' ∉ id) (hrest : rest = [] ∨ ∃ r, rest = '\n' :: r)
    (hmax : ∀ q m, p ++ dockerLit ++ id = q ++ dockerLit ++ m → q.length ≤ p.length) :
    findStringSubmatch cgroup (pre ++ p ++ dockerLit ++ id ++ rest) =
      [p ++ dockerLit ++ id, id] := by
  have hrest' : rest = [] ∨ rest.head? = some '\n' := by
    rcases hrest with h | ⟨r, h⟩
    · exact Or.inl h
    · exact Or.inr (by rw [h]; rfl)
  have hmax' : ∀ q m, '\n' ∉ q → p ++ dockerLit ++ (id ++ rest) = q ++ dockerLit ++ m →
      q.length ≤ p.length := by
    intro q m hq he
    have he' : (p ++ dockerLit ++ id) ++ rest = (q ++ dockerLit) ++ m := by
      simpa [List.append_assoc] using he
    obtain ⟨c, hc⟩ := occurrence_in_line _ rest (q ++ dockerLit) m hrest' (by
      simp only [List.mem_append, not_or]
      exact ⟨hq, nl_not_mem_dockerLit⟩) he'
    exact hmax q c hc
  have hline := cgroup_line (0 + pre.length) p (id ++ rest) (0, 0) hp hmax'
  rw [takeWhile_line id rest hid hrest'] at hline
  have hfind := findFrom_skip 0 pre (p ++ dockerLit ++ (id ++ rest)) _
    (fun v hv hne => no_firstLine_of_suffix pre _ v hpre hno hv hne) hline
  have etext : pre ++ p ++ dockerLit ++ id ++ rest = pre ++ (p ++ dockerLit ++ (id ++ rest)) := by
    simp [List.append_assoc]
  unfold findStringSubmatch
  rw [etext, hfind]
  simp only
  have e1 : pre ++ (p ++ dockerLit ++ (id ++ rest)) = pre ++ (p ++ dockerLit ++ id) ++ rest := by
    simp [List.append_assoc]
  have e2 : pre ++ (p ++ dockerLit ++ (id ++ rest)) = (pre ++ p ++ dockerLit) ++ id ++ rest := by
    simp [List.append_assoc]
  have s1 : slice (pre ++ (p ++ dockerLit ++ (id ++ rest))) (0 + pre.length)
      (0 + pre.length + p.length + 7 + id.length) = p ++ dockerLit ++ id := by
    rw [e1]
    apply slice_mid
    · simp
    · simp [dockerLit]; omega
  have s2 : slice (pre ++ (p ++ dockerLit ++ (id ++ rest))) (0 + pre.length + p.length + 7)
      (0 + pre.length + p.length + 7 + id.length) = id := by
    rw [e2]
    apply slice_mid
    · simp [dockerLit]; omega
    · simp [dockerLit]; omega
  rw [s1, s2]

theorem findStringSubmatch_none (text : Str) (h : ¬ dockerLit <:+: text) :
    findStringSubmatch cgroup text = [] := by
  unfold findStringSubmatch
  rw [findFrom_none 0 text h]

/-- Every text with `docker/` has the cut of `findStringSubmatch_decomp`. -/
theorem docker_decomp (text : Str) (h : dockerLit <:+: text) :
    ∃ pre p id rest, text = pre ++ p ++ dockerLit ++ id ++ rest ∧
      (pre = [] ∨ ∃ u, pre = u ++ ['\n']) ∧ ¬ dockerLit <:+: pre ∧
      '\n' ∉ p ∧ '\n' ∉ id ∧ (rest = [] ∨ ∃ r, rest = '\n' :: r) ∧
      (∀ q m, p ++ dockerLit ++ id = q ++ dockerLit ++ m → q.length ≤ p.length) := by
  obtain ⟨pre, l, rest, e1, e2, e3, e4, e5, e6⟩ := first_docker_line text.length text le_rfl h
  obtain ⟨p, id, hl, hmax⟩ := last_occurrence l e6
  subst hl
  simp only [List.mem_append, not_or] at e4
  exact ⟨pre, p, id, rest, by rw [e1]; simp [List.append_assoc], e2, e3, e4.1.1, e4.2, e5, hmax⟩

theorem stringsSplit_ne_nil (sep : Char) (s : Str) : stringsSplit sep s ≠ [] := by
  cases s with
  | nil => simp [stringsSplit]
  | cons c cs =>
    unfold stringsSplit
    split
    · simp
    · split <;> simp

theorem stringsSplit_append_sep (sep : Char) (a b : Str) :
    stringsSplit sep (a ++ sep :: b) = stringsSplit sep a ++ stringsSplit sep b := by
  induction a with
  | nil => simp [stringsSplit]
  | cons c t ih =>
    by_cases hc : c = sep
    · simp [stringsSplit, hc, ← ih]
    · have hne := stringsSplit_ne_nil sep t
      cases hs : stringsSplit sep t with
      | nil => exact absurd hs hne
      | cons e es =>
        rw [hs] at ih
        simp [stringsSplit, hc, ih, hs]

theorem stringsSplit_of_not_mem (sep : Char) (l : Str) (h : sep ∉ l) :
    stringsSplit sep l = [l] := by
  induction l with
  | nil => rfl
  | cons c t ih =>
    simp only [List.mem_cons, not_or] at h
    have hc : c ≠ sep := fun e => h.1 e.symm
    simp [stringsSplit, hc, ih h.2]

/-- A text has `docker/` exactly when one of its lines has. -/
theorem docker_in_some_line (n : Nat) (text : Str) (hn : text.length ≤ n) :
    dockerLit <:+: text ↔ ∃ line ∈ stringsSplit '\n' text, dockerLit <:+: line := by
  induction n generalizing text with
  | zero =>
    have : text = [] := List.length_eq_zero.mp (Nat.le_zero.mp hn)
    subst this
    simp [stringsSplit]
  | succ n ih =>
    obtain ⟨l, rest, h1, h2, h3⟩ := line_split text
    rcases h3 with rfl | ⟨r, rfl⟩
    · simp only [List.append_nil] at h1
      subst h1
      rw [stringsSplit_of_not_mem _ _ h2]
      simp
    · have hlen : r.length ≤ n := by
        have : text.length = l.length + (r.length + 1) := by rw [h1]; simp
        omega
      rw [h1, stringsSplit_append_sep, stringsSplit_of_not_mem _ _ h2]
      constructor
      · intro h
        rcases infix_of_newline_split _ _ _ nl_not_mem_dockerLit h with h' | h'
        · exact ⟨l, by simp, h'⟩
        · obtain ⟨line, hm, hl⟩ := (ih r hlen).mp h'
          exact ⟨line, by simp [hm], hl⟩
      · rintro ⟨line, hm, hl⟩
        simp only [List.singleton_append, List.mem_cons] at hm
        rcases hm with rfl | hm
        · exact hl.trans (List.infix_append' [] line ('\n' :: r))
        · have := (ih r hlen).mpr ⟨line, hm, hl⟩
          exact this.trans (((List.suffix_cons '\n' r).trans
            (List.suffix_append l ('\n' :: r))).isInfix)

theorem docker_id_iff (s : Str) : (∃ id, dockerLit ++ id <:+: s) ↔ dockerLit <:+: s := by
  constructor
  · rintro ⟨id, h⟩
    exact (List.prefix_append dockerLit id).isInfix.trans h
  · intro h
    exact ⟨[], by simpa using h⟩

theorem selectVariant_docker (text : Str) (h : dockerLit <:+: text) :
    ∃ pre p id rest, text = pre ++ p ++ dockerLit ++ id ++ rest ∧
      (pre = [] ∨ ∃ u, pre = u ++ ['\n']) ∧ ¬ dockerLit <:+: pre ∧
      '\n' ∉ p ∧ '\n' ∉ id ∧ (rest = [] ∨ ∃ r, rest = '\n' :: r) ∧
      (∀ q m, p ++ dockerLit ++ id = q ++ dockerLit ++ m → q.length ≤ p.length) ∧
      selectVariant text = Variant.docker id := by
  obtain ⟨pre, p, id, rest, e, h1, h2, h3, h4, h5, h6⟩ := docker_decomp text h
  refine ⟨pre, p, id, rest, e, h1, h2, h3, h4, h5, h6, ?_⟩
  unfold selectVariant
  rw [e, findStringSubmatch_decomp pre p id rest h1 h2 h3 h4 h5 h6]
  rfl

theorem selectVariant_standard (text : Str) (h : ¬ dockerLit <:+: text) :
    selectVariant text = Variant.standard := by
  unfold selectVariant
  rw [findStringSubmatch_none text h]
  rfl

/-! ## fmt and path -/

theorem sprintf_cons_ne (ext : Str → List Str → Str) (c : Char) (f : Str) (args : List Str)
    (hc : c ≠ '%') : sprintf ext (c :: f) args = c :: sprintf ext f args := by
  rw [sprintf]
  all_goals first | exact absurd rfl hc | (intros; trivial)

theorem sprintf_literal (ext : Str → List Str → Str) (dir f : Str) (args : List Str)
    (h : '%' ∉ dir) : sprintf ext (dir ++ f) args = dir ++ sprintf ext f args := by
  induction dir with
  | nil => rfl
  | cons c t ih =>
    simp only [List.mem_cons, not_or] at h
    have hc : c ≠ '%' := fun e => h.1 e.symm
    rw [List.cons_append, sprintf_cons_ne ext c _ args hc, ih h.2, List.cons_append]

theorem sprintf_core (ext : Str → List Str → Str) (a b c : Str) :
    sprintf ext "%s-%s-%s.core".toList [a, b, c] = a ++ '-' :: (b ++ '-' :: (c ++ ".core".toList)) := by
  rfl

theorem backtrack_ge (out : Str) (dotdot w : Nat) (h : dotdot ≤ w) :
    dotdot ≤ backtrack out dotdot w := by
  induction w with
  | zero => simpa [backtrack] using h
  | succ w ih =>
    unfold backtrack
    split
    · rename_i hc
      exact ih (by omega)
    · exact h

theorem backtrack_le (out : Str) (dotdot w : Nat) : backtrack out dotdot w ≤ w := by
  induction w with
  | zero => simp [backtrack]
  | succ w ih =>
    unfold backtrack
    split
    · omega
    · exact le_rfl

theorem cleanInit_inv (P : Char → Prop) (rooted : Bool) (hb : P '/') :
    CleanInv P rooted (cleanInit rooted) := by
  cases rooted
  · exact ⟨by simp, by simp [cleanInit]⟩
  · refine ⟨fun _ => ⟨rfl, [], rfl⟩, ?_⟩
    intro c hc
    simp only [cleanInit, if_true, List.mem_singleton] at hc
    rw [hc]
    exact hb

theorem cleanElem_inv (P : Char → Prop) (rooted : Bool) (st : Str × Nat) (e : Str)
    (hb : P '/') (hd : P '.') (he : ∀ c ∈ e, P c) (h : CleanInv P rooted st) :
    CleanInv P rooted (cleanElem rooted st e) := by
  obtain ⟨h1, h2⟩ := h
  have hslash : ∀ c ∈ st.1 ++ ['/'], P c := by
    intro c hc
    simp only [List.mem_append, List.mem_singleton] at hc
    rcases hc with hc | rfl
    · exact h2 c hc
    · exact hb
  unfold cleanElem
  split
  · exact ⟨h1, h2⟩
  split
  · exact ⟨h1, h2⟩
  split
  · split
    · rename_i hlen
      refine ⟨?_, fun c hm => h2 c (List.mem_of_mem_take hm)⟩
      intro hr
      obtain ⟨hdd, o, ho⟩ := h1 hr
      refine ⟨hdd, ?_⟩
      have hge := backtrack_ge st.1 st.2 (st.1.length - 1) (by omega)
      simp only at hge ⊢
      obtain ⟨n, hn⟩ : ∃ n, backtrack st.1 st.2 (st.1.length - 1) = n + 1 :=
        ⟨backtrack st.1 st.2 (st.1.length - 1) - 1, by omega⟩
      rw [hn, ho]
      exact ⟨_, rfl⟩
    · split
      · rename_i hr
        refine ⟨fun hr' => by rw [hr] at hr'; exact absurd hr' (by decide), ?_⟩
        intro c hc
        simp only [List.mem_append, List.mem_cons, List.mem_singleton, List.not_mem_nil,
          or_false] at hc
        rcases hc with hc | rfl | rfl
        · split at hc
          · exact hslash c hc
          · exact h2 c hc
        · exact hd
        · exact hd
      · exact ⟨h1, h2⟩
  · refine ⟨?_, ?_⟩
    · intro hr
      obtain ⟨hdd, o, ho⟩ := h1 hr
      refine ⟨hdd, ?_⟩
      simp only
      split
      · exact ⟨o ++ ['/'] ++ e, by rw [ho]; simp⟩
      · exact ⟨o ++ e, by rw [ho]; simp⟩
    · intro c hc
      simp only [List.mem_append] at hc
      rcases hc with hc | hc
      · split at hc
        · exact hslash c hc
        · exact h2 c hc
      · exact he c hc

theorem mem_of_mem_stringsSplit (sep : Char) (s e : Str) (c : Char)
    (he : e ∈ stringsSplit sep s) (hc : c ∈ e) : c ∈ s := by
  induction s generalizing e with
  | nil =>
    simp only [stringsSplit, List.mem_singleton] at he
    subst he
    exact hc
  | cons x t ih =>
    unfold stringsSplit at he
    split at he
    · simp only [List.mem_cons] at he
      rcases he with rfl | he
      · exact absurd hc (by simp)
      · exact List.mem_cons_of_mem _ (ih e he hc)
    · split at he
      · rename_i hs
        exact absurd hs (stringsSplit_ne_nil sep t)
      · rename_i e' es hs
        simp only [List.mem_cons] at he
        rcases he with rfl | he
        · simp only [List.mem_cons] at hc
          rcases hc with rfl | hc
          · exact List.mem_cons_self _ _
          · exact List.mem_cons_of_mem _ (ih e' (by rw [hs]; simp) hc)
        · exact List.mem_cons_of_mem _ (ih e (by rw [hs]; simp [he]) hc)

theorem foldl_cleanElem_inv (P : Char → Prop) (rooted : Bool) (es : List Str) (st : Str × Nat)
    (hb : P '/') (hd : P '.') (hes : ∀ e ∈ es, ∀ c ∈ e, P c) (h : CleanInv P rooted st) :
    CleanInv P rooted (es.foldl (cleanElem rooted) st) := by
  induction es generalizing st with
  | nil => exact h
  | cons e t ih =>
    simp only [List.foldl_cons]
    exact ih _ (fun e' he' => hes e' (List.mem_cons_of_mem _ he'))
      (cleanElem_inv P rooted st e hb hd (hes e (List.mem_cons_self _ _)) h)

theorem cleanLoop_inv (P : Char → Prop) (rooted : Bool) (body : Str)
    (hb : P '/') (hd : P '.') (h : ∀ c ∈ body, P c) :
    CleanInv P rooted (cleanLoop rooted body) :=
  foldl_cleanElem_inv P rooted _ _ hb hd
    (fun _ he c hc => h c (mem_of_mem_stringsSplit '/' body _ c he hc))
    (cleanInit_inv P rooted hb)

theorem cleanLoop_append_sep (rooted : Bool) (b f : Str) (hf : '/' ∉ f) :
    cleanLoop rooted (b ++ '/' :: f) = cleanElem rooted (cleanLoop rooted b) f := by
  unfold cleanLoop
  rw [stringsSplit_append_sep, stringsSplit_of_not_mem _ _ hf, List.foldl_append]
  rfl

theorem cleanElem_real (rooted : Bool) (st : Str × Nat) (f : Str)
    (h0 : f ≠ []) (h1 : f ≠ ['.']) (h2 : f ≠ ['.', '.']) :
    cleanElem rooted st f =
      ((if (rooted = true ∧ st.1.length ≠ 1) ∨ (rooted = false ∧ st.1.length ≠ 0)
          then st.1 ++ ['/'] else st.1) ++ f, st.2) := by
  unfold cleanElem
  rw [if_neg h0, if_neg h1, if_neg h2]

/-- Cleaning a path that ends in an ordinary element keeps that element at the
end, after a directory part that is empty or ends in a slash. -/
theorem pathClean_append_real (X f : Str) (hX : X ≠ [])
    (hf : '/' ∉ f) (h0 : f ≠ []) (h1 : f ≠ ['.']) (h2 : f ≠ ['.', '.']) :
    ∃ dir, pathClean (X ++ '/' :: f) = dir ++ f ∧ (dir = [] ∨ ∃ d, dir = d ++ ['/']) ∧
      ∀ P : Char → Prop, P '/' → P '.' → (∀ c ∈ X, P c) → ∀ c ∈ dir, P c := by
  cases X with
  | nil => exact absurd rfl hX
  | cons x X' =>
    have key : ∀ (rooted : Bool) (b : Str), (∀ c ∈ b, c ∈ x :: X') →
        (let out := (cleanLoop rooted (b ++ '/' :: f)).1
         ∃ dir, (if out.length = 0 then ['.'] else out) = dir ++ f ∧
          (dir = [] ∨ ∃ d, dir = d ++ ['/']) ∧
          ∀ P : Char → Prop, P '/' → P '.' → (∀ c ∈ x :: X', P c) → ∀ c ∈ dir, P c) := by
      intro rooted b hb
      simp only
      rw [cleanLoop_append_sep rooted b f hf, cleanElem_real rooted _ f h0 h1 h2]
      have hinv : ∀ P : Char → Prop, P '/' → P '.' → (∀ c ∈ x :: X', P c) →
          CleanInv P rooted (cleanLoop rooted b) :=
        fun P p1 p2 p3 => cleanLoop_inv P rooted b p1 p2 (fun c hc => p3 c (hb c hc))
      have hroot := (hinv (fun _ => True) trivial trivial (fun _ _ => trivial)).1
      generalize cleanLoop rooted b = st at hinv hroot
      refine ⟨if (rooted = true ∧ st.1.length ≠ 1) ∨ (rooted = false ∧ st.1.length ≠ 0)
          then st.1 ++ ['/'] else st.1, ?_, ?_, ?_⟩
      · simp only
        rw [if_neg]
        simp only [List.length_append, ne_eq]
        have : 0 < f.length := List.length_pos.mpr h0
        omega
      · split
        · exact Or.inr ⟨st.1, rfl⟩
        · rename_i hc
          cases rooted with
          | false =>
            left
            have : st.1.length = 0 := by
              by_contra hne
              exact hc (Or.inr ⟨rfl, hne⟩)
            exact List.length_eq_zero.mp this
          | true =>
            right
            obtain ⟨-, o, ho⟩ := hroot rfl
            have : st.1.length = 1 := by
              by_contra hne
              exact hc (Or.inl ⟨rfl, hne⟩)
            rw [ho] at this
            have ho' : o = [] := List.length_eq_zero.mp (by simpa using this)
            exact ⟨[], by rw [ho, ho']; rfl⟩
      · intro P p1 p2 p3 c hc
        have h := (hinv P p1 p2 p3).2
        split at hc
        · simp only [List.mem_append, List.mem_singleton] at hc
          rcases hc with hc | rfl
          · exact h c hc
          · exact p1
        · exact h c hc
    by_cases hx : x = '/'
    · subst hx
      have := key true X' (fun c hc => List.mem_cons_of_mem _ hc)
      simpa [pathClean] using this
    · have := key false (x :: X') (fun c hc => hc)
      simpa [pathClean, hx] using this

theorem intercalate_pair (a b : Str) : List.intercalate ['/'] [a, b] = a ++ '/' :: b := by
  simp [List.intercalate, List.intersperse]

theorem pathJoin_pair (a b : Str) (ha : a ≠ []) (hb : b ≠ []) :
    pathJoin [a, b] = pathClean (a ++ '/' :: b) := by
  simp [pathJoin, ha, hb, intercalate_pair]

theorem mainPathFmt_shape (pfx : Str) :
    ∃ dir, mainPathFmt pfx = dir ++ "%s-%s-%s.core".toList ∧
      (dir = [] ∨ ∃ d, dir = d ++ ['/']) ∧ ('%' ∉ pfx → '%' ∉ dir) := by
  by_cases hp : pfx = []
  · subst hp
    exact ⟨[], by decide, Or.inl rfl, fun _ => by simp⟩
  · obtain ⟨dir, h1, h2, h3⟩ := pathClean_append_real pfx "%s-%s-%s.core".toList hp
      (by decide) (by decide) (by decide) (by decide)
    refine ⟨dir, ?_, h2, ?_⟩
    · rw [← h1]
      exact pathJoin_pair pfx _ hp (by decide)
    · intro hno hmem
      exact h3 (fun c => c ≠ '%') (by decide) (by decide)
        (fun c hc e => hno (e ▸ hc)) '%' hmem rfl

/-! ## time and decimal numbers -/

theorem digitChar_isDigit (d : Nat) : (digitChar d).isDigit = true := by
  unfold digitChar
  have h : d % 10 < 10 := Nat.mod_lt _ (by decide)
  generalize d % 10 = m at h
  interval_cases m <;> decide

theorem digitsRev_isDigit (fuel n : Nat) : ∀ c ∈ digitsRev fuel n, c.isDigit = true := by
  induction fuel generalizing n with
  | zero => simp [digitsRev]
  | succ f ih =>
    intro c hc
    unfold digitsRev at hc
    simp only [List.mem_cons] at hc
    rcases hc with rfl | hc
    · exact digitChar_isDigit n
    · split at hc
      · simp at hc
      · exact ih _ c hc

theorem digitsRev_length_le (k fuel n : Nat) (hk : 1 ≤ k) (hn : n < 10 ^ k) :
    (digitsRev fuel n).length ≤ k := by
  induction k generalizing fuel n with
  | zero => omega
  | succ k ih =>
    cases fuel with
    | zero => simp [digitsRev]
    | succ f =>
      unfold digitsRev
      split
      · simp
      · rename_i hne
        have h10 : 10 ≤ n := by
          by_contra hlt
          exact hne (Nat.div_eq_of_lt (by omega))
        have hk1 : 1 ≤ k := by
          by_contra hk0
          have : k = 0 := by omega
          subst this
          simp at hn
          omega
        have : n / 10 < 10 ^ k := by
          rw [Nat.div_lt_iff_lt_mul (by decide)]
          rw [pow_succ] at hn
          exact hn
        have := ih f (n / 10) hk1 this
        simp only [List.length_cons]
        omega

theorem appendInt_length (n width : Nat) (hw : 1 ≤ width) (hn : n < 10 ^ width) :
    (appendInt n width).length = width := by
  have h : (utoa n).length ≤ width := by
    unfold utoa
    rw [List.length_reverse]
    exact digitsRev_length_le width _ n hw hn
  unfold appendInt
  rw [List.length_append, List.length_replicate]
  omega

theorem appendInt_isDigit (n width : Nat) : ∀ c ∈ appendInt n width, c.isDigit = true := by
  intro c hc
  unfold appendInt at hc
  rw [List.mem_append] at hc
  rcases hc with hc | hc
  · rw [List.mem_replicate] at hc
    rw [hc.2]
    decide
  · unfold utoa at hc
    rw [List.mem_reverse] at hc
    exact digitsRev_isDigit _ _ c hc

/-- The timestamp of a valid time is fourteen decimal digits. -/
theorem formatTimestamp_digits (t : Time) (h : t.Valid) : IsTimestamp (formatTimestamp t) := by
  obtain ⟨h1, h2, h3, h4, h5, h6, h7, h8⟩ := h
  constructor
  · unfold formatTimestamp
    simp only [List.length_append]
    rw [appendInt_length t.year 4 (by decide) (by omega),
      appendInt_length t.month 2 (by decide) (by omega),
      appendInt_length t.day 2 (by decide) (by omega),
      appendInt_length t.hour 2 (by decide) (by omega),
      appendInt_length t.minute 2 (by decide) (by omega),
      appendInt_length t.second 2 (by decide) (by omega)]
  · intro c hc
    unfold formatTimestamp at hc
    simp only [List.mem_append] at hc
    rcases hc with ((((hc | hc) | hc) | hc) | hc) | hc <;> exact appendInt_isDigit _ _ c hc

theorem pathBase_ne_nil (p : Str) : pathBase p ≠ [] := by
  unfold pathBase
  split
  · simp
  · simp only
    split
    · simp
    · assumption

theorem stringsSplit_headD (sep : Char) (s : Str) :
    (stringsSplit sep s).headD [] = s.takeWhile (fun c => decide (c ≠ sep)) := by
  induction s with
  | nil => rfl
  | cons c t ih =>
    by_cases hc : c = sep
    · simp [stringsSplit, hc]
    · have hne := stringsSplit_ne_nil sep t
      cases hs : stringsSplit sep t with
      | nil => exact absurd hs hne
      | cons e es =>
        rw [hs] at ih
        simp only [List.headD_cons] at ih
        simp [stringsSplit, hc, hs, ih]

theorem dropWhile_slash_id (r : Str) (x : Char) (hx : x ≠ '/') :
    (x :: r).dropWhile (fun c => decide (c = '/')) = x :: r := by
  simp [List.dropWhile, hx]

theorem pathBase_of_last (body name : Str) (hn : '/' ∉ name) (hne : name ≠ [])
    (hb : body = [] ∨ ∃ d, body = d ++ ['/']) : pathBase (body ++ name) = name := by
  have hnr : name.reverse ≠ [] := by simpa using hne
  obtain ⟨x, r, hxr⟩ := List.exists_cons_of_ne_nil hnr
  have hx : x ≠ '/' := by
    intro e
    apply hn
    have : x ∈ name.reverse := by rw [hxr]; simp
    rw [← e]
    exact List.mem_reverse.mp this
  have hall : ∀ c ∈ name.reverse, decide (c ≠ '/') = true := by
    intro c hc
    have : c ∈ name := List.mem_reverse.mp hc
    simp only [ne_eq, decide_not, Bool.not_eq_true', decide_eq_false_iff_not]
    intro e
    exact hn (e ▸ this)
  have hne2 : body ++ name ≠ [] := by simp [hne]
  unfold pathBase
  rw [if_neg hne2]
  simp only [List.reverse_append, List.reverse_reverse]
  have e1 : (name.reverse ++ body.reverse).dropWhile (fun c => decide (c = '/')) =
      name.reverse ++ body.reverse := by
    rw [hxr, List.cons_append]
    exact dropWhile_slash_id _ x hx
  rw [e1]
  have e2 : (name.reverse ++ body.reverse).takeWhile (fun c => decide (c ≠ '/')) =
      name.reverse := by
    rcases hb with rfl | ⟨d, rfl⟩
    · simp only [List.reverse_nil, List.append_nil]
      exact List.takeWhile_eq_self_iff.mpr hall
    · simp only [List.reverse_append, List.reverse_cons, List.reverse_nil, List.nil_append,
        List.singleton_append]
      rw [List.takeWhile_append_of_pos hall]
      simp
  rw [e2, List.reverse_reverse, if_neg hne]

theorem pathBase_after_slash (d name : Str) (hn : '/' ∉ name) (hne : name ≠ []) :
    pathBase (d ++ '/' :: name) = name := by
  have := pathBase_of_last (d ++ ['/']) name hn hne (Or.inr ⟨d, rfl⟩)
  simpa using this

theorem pathBase_no_slash (name : Str) (hn : '/' ∉ name) (hne : name ≠ []) :
    pathBase name = name := by
  have := pathBase_of_last [] name hn hne (Or.inl rfl)
  simpa using this

theorem digitVal_digitChar (n : Nat) : digitVal (digitChar n) = n % 10 := by
  unfold digitChar digitVal
  have h : n % 10 < 10 := Nat.mod_lt _ (by decide)
  generalize n % 10 = m at h
  interval_cases m <;> decide

theorem digitsRev_value (fuel n : Nat) (h : n < fuel) :
    (digitsRev fuel n).foldr (fun c acc => 10 * acc + digitVal c) 0 = n := by
  induction fuel generalizing n with
  | zero => omega
  | succ f ih =>
    unfold digitsRev
    simp only [List.foldr_cons, digitVal_digitChar]
    split
    · rename_i h0
      simp only [List.foldr_nil]
      have := Nat.div_add_mod n 10
      omega
    · rename_i h0
      have hlt : n / 10 < f := by
        have : n / 10 < n := Nat.div_lt_self (by
          by_contra hn
          have : n = 0 := by omega
          subst this
          exact h0 rfl) (by decide)
        omega
      rw [ih (n / 10) hlt]
      have := Nat.div_add_mod n 10
      omega

/-- The digits `utoa` writes are the decimal form of the number. -/
theorem decodeDec_utoa (n : Nat) : decodeDec (utoa n) = n := by
  unfold decodeDec utoa
  rw [List.foldl_reverse]
  exact digitsRev_value (n + 1) n (by omega)

theorem itoa_decimal (i : Int) :
    ∃ digits, itoa i = (if i < 0 then '-' :: digits else digits) ∧
      decodeDec digits = i.natAbs :=
  ⟨utoa i.natAbs, by unfold itoa; split <;> rfl, decodeDec_utoa _⟩

/-! ## Selection of the path variant -/

/-- C1: the pattern `cgroup` finds a match in the cgroup text exactly when some
line of the text contains `docker/` followed by a container id (any string, the
empty one included); when the text contains `docker/<id>` the branch
`buildDockerPath` is taken, and otherwise the branch `buildStandardPath`. -/
theorem variant_selected_by_docker_substring (env : Env) (text : Str) :
    (findStringSubmatch cgroup text ≠ [] ↔
      ∃ line ∈ stringsSplit '\n' text, ∃ id, dockerLit ++ id <:+: line) ∧
    ((∃ id, dockerLit ++ id <:+: text) →
      ∃ id, selectVariant text = Variant.docker id ∧
        storagePathFor env text = buildDockerPath env id) ∧
    (¬ (∃ id, dockerLit ++ id <:+: text) →
      selectVariant text = Variant.standard ∧
        storagePathFor env text = some (buildStandardPath env)) := by
  have hlines : dockerLit <:+: text ↔
      ∃ line ∈ stringsSplit '\n' text, ∃ id, dockerLit ++ id <:+: line := by
    rw [docker_in_some_line text.length text le_rfl]
    constructor
    · rintro ⟨line, hm, hl⟩
      exact ⟨line, hm, (docker_id_iff line).mpr hl⟩
    · rintro ⟨line, hm, hl⟩
      exact ⟨line, hm, (docker_id_iff line).mp hl⟩
  refine ⟨?_, ?_, ?_⟩
  · rw [← hlines]
    constructor
    · intro hne
      by_contra hno
      exact hne (findStringSubmatch_none text hno)
    · intro hd
      obtain ⟨pre, p, id, rest, e, h1, h2, h3, h4, h5, h6⟩ := docker_decomp text hd
      rw [e, findStringSubmatch_decomp pre p id rest h1 h2 h3 h4 h5 h6]
      simp
  · intro hd
    obtain ⟨pre, p, id, rest, -, -, -, -, -, -, -, hsel⟩ :=
      selectVariant_docker text ((docker_id_iff text).mp hd)
    exact ⟨id, hsel, by simp only [storagePathFor, hsel]⟩
  · intro hd
    have hsel := selectVariant_standard text (fun h => hd ((docker_id_iff text).mpr h))
    exact ⟨hsel, by simp only [storagePathFor, hsel]⟩

/-- C9: for a cgroup text that contains `docker/`, the container id handed to
`buildDockerPath` is the rest of the first line with `docker/`, after the last
`docker/` of that line and up to the end of the line; it has no newline, and
the lines after that line do not change it. -/
theorem container_id_from_first_line (text : Str) (h : dockerLit <:+: text) :
    ∃ pre p id rest, text = pre ++ p ++ dockerLit ++ id ++ rest ∧
      (pre = [] ∨ ∃ u, pre = u ++ ['\n']) ∧ ¬ dockerLit <:+: pre ∧
      '\n' ∉ p ∧ '\n' ∉ id ∧ (rest = [] ∨ ∃ r, rest = '\n' :: r) ∧
      (∀ q m, p ++ dockerLit ++ id = q ++ dockerLit ++ m → q.length ≤ p.length) ∧
      findStringSubmatch cgroup text = [p ++ dockerLit ++ id, id] ∧
      selectVariant text = Variant.docker id ∧
      ∀ later, (later = [] ∨ ∃ r, later = '\n' :: r) →
        selectVariant (pre ++ p ++ dockerLit ++ id ++ later) = Variant.docker id := by
  obtain ⟨pre, p, id, rest, e, h1, h2, h3, h4, h5, h6⟩ := docker_decomp text h
  have hm := findStringSubmatch_decomp pre p id rest h1 h2 h3 h4 h5 h6
  refine ⟨pre, p, id, rest, e, h1, h2, h3, h4, h5, h6, by rw [e]; exact hm, ?_, ?_⟩
  · unfold selectVariant
    rw [e, hm]
    rfl
  · intro later hl
    unfold selectVariant
    rw [findStringSubmatch_decomp pre p id later h1 h2 h3 h4 hl h6]
    rfl

/-- Of two lines with `docker/` the first gives the id, and of two `docker/` on
that line the last: the id is `b`, not `a/docker/b` and not `c`. -/
theorem container_id_from_first_line_witness :
    dockerLit <:+: "1:cpu:/docker/a/docker/b\n2:mem:/docker/c".toList ∧
      selectVariant "1:cpu:/docker/a/docker/b\n2:mem:/docker/c".toList =
        Variant.docker "b".toList ∧
      ∃ pre p id rest,
        "1:cpu:/docker/a/docker/b\n2:mem:/docker/c".toList = pre ++ p ++ dockerLit ++ id ++ rest ∧
        (pre = [] ∨ ∃ u, pre = u ++ ['\n']) ∧ ¬ dockerLit <:+: pre ∧
        '\n' ∉ p ∧ '\n' ∉ id ∧ (rest = [] ∨ ∃ r, rest = '\n' :: r) ∧
        (∀ q m, p ++ dockerLit ++ id = q ++ dockerLit ++ m → q.length ≤ p.length) ∧
        findStringSubmatch cgroup "1:cpu:/docker/a/docker/b\n2:mem:/docker/c".toList =
          [p ++ dockerLit ++ id, id] ∧
        selectVariant "1:cpu:/docker/a/docker/b\n2:mem:/docker/c".toList = Variant.docker id ∧
        ∀ later, (later = [] ∨ ∃ r, later = '\n' :: r) →
          selectVariant (pre ++ p ++ dockerLit ++ id ++ later) = Variant.docker id :=
  ⟨⟨"1:cpu:/".toList, "a/docker/b\n2:mem:/docker/c".toList, by decide⟩, by decide,
    container_id_from_first_line _
      ⟨"1:cpu:/".toList, "a/docker/b\n2:mem:/docker/c".toList, by decide⟩⟩

/-! ## The storage path -/

/-- The format applied to three operands, for a flag `-prefix` without `%`. -/
theorem sprintf_mainPathFmt (pfx : Str) (hp : '%' ∉ pfx) :
    ∃ dir, mainPathFmt pfx = dir ++ "%s-%s-%s.core".toList ∧
      (dir = [] ∨ ∃ d, dir = d ++ ['/']) ∧
      ∀ (ext : Str → List Str → Str) (a b c : Str),
        sprintf ext (mainPathFmt pfx) [a, b, c] =
          dir ++ a ++ '-' :: b ++ '-' :: c ++ ".core".toList := by
  obtain ⟨dir, h1, h2, h3⟩ := mainPathFmt_shape pfx
  refine ⟨dir, h1, h2, ?_⟩
  intro ext a b c
  rw [h1, sprintf_literal ext dir _ _ (h3 hp), sprintf_core]
  simp [List.append_assoc]

theorem dir_of_default (dir : Str)
    (h : mainPathFmt "/coredumps/".toList = dir ++ "%s-%s-%s.core".toList) :
    dir = "/coredumps/".toList := by
  have e : mainPathFmt "/coredumps/".toList =
      "/coredumps/".toList ++ "%s-%s-%s.core".toList := by decide
  rw [e] at h
  exact (List.append_cancel_right h).symm

/-- With a readable command-line record, the operands `buildStandardPath`
formats are the timestamp, the local hostname and the base name of the first
NUL-separated argument, the base name being what follows the last slash; for a
flag `-prefix` without `%` the path reads
`<dir><timestamp>-<hostname>-<execname>.core`, `<dir>` being the directory part
of the format. -/
theorem standard_path_uses_exec_base_name (env : Env) (cmdline : Str)
    (hread : env.readFile (procFile env.pid "cmdline".toList) = some cmdline) :
    buildStandardPath env =
        sprintf env.fmtExt (mainPathFmt env.pfx)
          [formatTimestamp env.now, hostnameOrEmpty env,
            pathBase (cmdline.takeWhile (fun c => decide (c ≠ Char.ofNat 0)))] ∧
      (∀ h, env.hostname = some h → hostnameOrEmpty env = h) ∧
      (∀ d name, '/' ∉ name → name ≠ [] → pathBase (d ++ '/' :: name) = name) ∧
      (∀ name, '/' ∉ name → name ≠ [] → pathBase name = name) ∧
      ('%' ∉ env.pfx →
        ∃ dir, mainPathFmt env.pfx = dir ++ "%s-%s-%s.core".toList ∧
          (dir = [] ∨ ∃ d, dir = d ++ ['/']) ∧
          buildStandardPath env =
            dir ++ formatTimestamp env.now ++ '-' :: hostnameOrEmpty env ++
              '-' :: pathBase (cmdline.takeWhile (fun c => decide (c ≠ Char.ofNat 0))) ++
              ".core".toList) := by
  have hval : buildStandardPath env =
      sprintf env.fmtExt (mainPathFmt env.pfx)
        [formatTimestamp env.now, hostnameOrEmpty env,
          pathBase (cmdline.takeWhile (fun c => decide (c ≠ Char.ofNat 0)))] := by
    unfold buildStandardPath
    simp only [hread]
    rw [stringsSplit_headD]
  refine ⟨hval, ?_, ?_, ?_, ?_⟩
  · intro h hh
    simp [hostnameOrEmpty, hh]
  · intro d name hn hne
    exact pathBase_after_slash d name hn hne
  · intro name hn hne
    exact pathBase_no_slash name hn hne
  · intro hp
    obtain ⟨dir, h1, h2, h3⟩ := sprintf_mainPathFmt env.pfx hp
    exact ⟨dir, h1, h2, by rw [hval, h3]⟩

/-- The scenario of pid 1234: `/usr/bin/myapp` on `host1` is stored as
`/coredumps/<timestamp>-host1-myapp.core`. -/
theorem standard_path_uses_exec_base_name_witness :
    bareEnv.readFile (procFile bareEnv.pid "cmdline".toList) =
      some ("/usr/bin/myapp".toList ++ [Char.ofNat 0] ++ "--verbose".toList ++ [Char.ofNat 0]) ∧
    buildStandardPath bareEnv = "/coredumps/20240102030405-host1-myapp.core".toList := by
  refine ⟨by decide, ?_⟩
  obtain ⟨-, -, -, -, h⟩ := standard_path_uses_exec_base_name bareEnv
    ("/usr/bin/myapp".toList ++ [Char.ofNat 0] ++ "--verbose".toList ++ [Char.ofNat 0])
    (by decide)
  obtain ⟨dir, h1, -, h3⟩ := h (by decide)
  rw [h3, dir_of_default dir h1]
  decide

/-- C6 fails on the code for a flag `-prefix` with a `%`: the flag is spliced
into the format of `fmt.Sprintf`, so with `-prefix=/%s/`, the command line
`/usr/bin/myapp` and the hostname `host1` the first `%s` takes the timestamp
and the path is `/20240102030405/host1-myapp-%!s(MISSING).core`; it does not
end in `<timestamp>-host1-myapp.core`, and the base name stands where the
hostname belongs. -/
theorem exec_base_name_displaced_by_percent_flag :
    percentEnv.readFile (procFile percentEnv.pid "cmdline".toList) =
      some ("/usr/bin/myapp".toList ++ [Char.ofNat 0] ++ "--verbose".toList ++ [Char.ofNat 0]) ∧
    percentEnv.hostname = some "host1".toList ∧
    mainPathFmt percentEnv.pfx = "/%s/%s-%s-%s.core".toList ∧
    buildStandardPath percentEnv = "/20240102030405/host1-myapp-%!s(MISSING).core".toList ∧
    ¬ "20240102030405-host1-myapp.core".toList <:+ buildStandardPath percentEnv := by
  refine ⟨by decide, by decide, by decide, by decide, ?_⟩
  have h : buildStandardPath percentEnv =
      "/20240102030405/host1-myapp-%!s(MISSING).core".toList := by decide
  rw [h]
  decide

/-- When `/proc/<N>/cmdline` cannot be read, `buildStandardPath` still returns
a path; its third operand is `pid-` followed by `N` in decimal, for a flag
`-prefix` without `%` the path reads
`<dir><timestamp>-<hostname>-pid-<N>.core`, and a run that takes the standard
branch is not aborted. -/
theorem standard_path_pid_fallback (env : Env)
    (hread : env.readFile (procFile env.pid "cmdline".toList) = none) :
    buildStandardPath env =
        sprintf env.fmtExt (mainPathFmt env.pfx)
          [formatTimestamp env.now, hostnameOrEmpty env, "pid-".toList ++ itoa env.pid] ∧
      (∃ digits, itoa env.pid = (if env.pid < 0 then '-' :: digits else digits) ∧
        decodeDec digits = env.pid.natAbs) ∧
      (∀ (w : World) (cgroups : Str),
        env.readFile (procFile env.pid "cgroup".toList) = some cgroups →
        selectVariant cgroups = Variant.standard →
        ∃ w', main env w = Outcome.returned w') ∧
      ('%' ∉ env.pfx →
        ∃ dir, mainPathFmt env.pfx = dir ++ "%s-%s-%s.core".toList ∧
          (dir = [] ∨ ∃ d, dir = d ++ ['/']) ∧
          buildStandardPath env =
            dir ++ formatTimestamp env.now ++ '-' :: hostnameOrEmpty env ++
              '-' :: ("pid-".toList ++ itoa env.pid) ++ ".core".toList) := by
  have hval : buildStandardPath env =
      sprintf env.fmtExt (mainPathFmt env.pfx)
        [formatTimestamp env.now, hostnameOrEmpty env, "pid-".toList ++ itoa env.pid] := by
    unfold buildStandardPath
    simp only [hread]
  refine ⟨hval, itoa_decimal env.pid, ?_, ?_⟩
  · intro w cgroups hc hsel
    refine ⟨writeDump env (buildStandardPath env) w, ?_⟩
    unfold main
    simp only [hc, storagePathFor, hsel]
  · intro hp
    obtain ⟨dir, h1, h2, h3⟩ := sprintf_mainPathFmt env.pfx hp
    exact ⟨dir, h1, h2, by rw [hval, h3]⟩

/-- Pid 1234 with an unreadable command line is stored as
`/coredumps/<timestamp>-host1-pid-1234.core`, and the run returns. -/
theorem standard_path_pid_fallback_witness :
    goneEnv.readFile (procFile goneEnv.pid "cmdline".toList) = none ∧
    buildStandardPath goneEnv = "/coredumps/20240102030405-host1-pid-1234.core".toList ∧
    ∃ w', main goneEnv world0 = Outcome.returned w' := by
  refine ⟨by decide, ?_⟩
  obtain ⟨-, -, h4, h⟩ := standard_path_pid_fallback goneEnv (by decide)
  obtain ⟨dir, h1, -, h3⟩ := h (by decide)
  refine ⟨?_, h4 world0 "1:name=systemd:/user.slice\n".toList (by decide) (by decide)⟩
  rw [h3, dir_of_default dir h1]
  decide

/-- When the labels of the inspected container have the key
`io.kubernetes.pod.name`, the operands `buildDockerPath` formats are the value
of that label and the value of the label `io.kubernetes.container.name`,
whatever the local hostname and the name of the container object are; for a
flag `-prefix` without `%` the path reads
`<dir><timestamp>-<pod name>-<container name>.core`. -/
theorem docker_path_uses_pod_labels (env : Env) (id : Str) (container : Container)
    (podName : Str) (hclient : env.dockerClient = true)
    (hinspect : env.containerInspect id = some container)
    (hpod : labelLookup container.labels "io.kubernetes.pod.name".toList = some podName) :
    buildDockerPath env id =
        some (sprintf env.fmtExt (mainPathFmt env.pfx)
          [formatTimestamp env.now, podName,
            labelValue container.labels "io.kubernetes.container.name".toList]) ∧
      (∀ (host : Option Str) (name : Str),
        buildDockerPath
            { env with
              hostname := host
              containerInspect := fun i =>
                (env.containerInspect i).map (fun c => { c with name := name }) } id =
          buildDockerPath env id) ∧
      ('%' ∉ env.pfx →
        ∃ dir, mainPathFmt env.pfx = dir ++ "%s-%s-%s.core".toList ∧
          (dir = [] ∨ ∃ d, dir = d ++ ['/']) ∧
          buildDockerPath env id =
            some (dir ++ formatTimestamp env.now ++ '-' :: podName ++
              '-' :: labelValue container.labels "io.kubernetes.container.name".toList ++
              ".core".toList)) := by
  have hval : buildDockerPath env id =
      some (sprintf env.fmtExt (mainPathFmt env.pfx)
        [formatTimestamp env.now, podName,
          labelValue container.labels "io.kubernetes.container.name".toList]) := by
    unfold buildDockerPath
    simp only [hclient, hinspect, hpod]
    rfl
  refine ⟨hval, ?_, ?_⟩
  · intro host name
    unfold buildDockerPath
    simp only [hclient, hinspect, hpod, Option.map_some']
  · intro hp
    obtain ⟨dir, h1, h2, h3⟩ := sprintf_mainPathFmt env.pfx hp
    exact ⟨dir, h1, h2, by rw [hval, h3]⟩

/-- The scenario of pid 5678: the labels `web-7` and `nginx` give
`/coredumps/<timestamp>-web-7-nginx.core`. -/
theorem docker_path_uses_pod_labels_witness :
    podEnv.dockerClient = true ∧
    podEnv.containerInspect "abcdef".toList = some podContainer ∧
    labelLookup podContainer.labels "io.kubernetes.pod.name".toList = some "web-7".toList ∧
    buildDockerPath podEnv "abcdef".toList =
      some "/coredumps/20240102030405-web-7-nginx.core".toList ∧
    selectVariant "4:cpu:/docker/abcdef\n".toList = Variant.docker "abcdef".toList := by
  refine ⟨by decide, by decide, by decide, ?_, by decide⟩
  obtain ⟨-, -, h⟩ := docker_path_uses_pod_labels podEnv "abcdef".toList
    podContainer "web-7".toList (by decide) (by decide) (by decide)
  obtain ⟨dir, h1, -, h3⟩ := h (by decide)
  rw [h3, dir_of_default dir h1]
  decide

/-- C7 fails on the code for a flag `-prefix` with a `%`: the flag is spliced
into the format of `fmt.Sprintf`, so with `-prefix=/%s/`, pid 1234, an
unreadable command line and the hostname `host1` the path is
`/20240102030405/host1-pid-1234-%!s(MISSING).core`; it does not end in
`<timestamp>-host1-pid-1234.core`. -/
theorem pid_fallback_displaced_by_percent_flag :
    percentGoneEnv.readFile (procFile percentGoneEnv.pid "cmdline".toList) = none ∧
    percentGoneEnv.pid = 1234 ∧
    percentGoneEnv.hostname = some "host1".toList ∧
    mainPathFmt percentGoneEnv.pfx = "/%s/%s-%s-%s.core".toList ∧
    buildStandardPath percentGoneEnv =
      "/20240102030405/host1-pid-1234-%!s(MISSING).core".toList ∧
    ¬ "20240102030405-host1-pid-1234.core".toList <:+ buildStandardPath percentGoneEnv := by
  refine ⟨by decide, by decide, by decide, by decide, by decide, ?_⟩
  have h : buildStandardPath percentGoneEnv =
      "/20240102030405/host1-pid-1234-%!s(MISSING).core".toList := by decide
  rw [h]
  decide

/-- C5 fails on the code for a flag `-prefix` with a `%`: the flag is spliced
into the format of `fmt.Sprintf`, so with `-prefix=/%s/` and the labels
`web-7` and `nginx` the path is
`/20240102030405/web-7-nginx-%!s(MISSING).core`; it does not end in
`<timestamp>-web-7-nginx.core`, the pod name stands where the timestamp
belongs and the container name where the host identifier belongs. -/
theorem pod_labels_displaced_by_percent_flag :
    percentPodEnv.dockerClient = true ∧
    percentPodEnv.containerInspect "abcdef".toList = some podContainer ∧
    labelLookup podContainer.labels "io.kubernetes.pod.name".toList = some "web-7".toList ∧
    labelValue podContainer.labels "io.kubernetes.container.name".toList = "nginx".toList ∧
    mainPathFmt percentPodEnv.pfx = "/%s/%s-%s-%s.core".toList ∧
    buildDockerPath percentPodEnv "abcdef".toList =
      some "/20240102030405/web-7-nginx-%!s(MISSING).core".toList ∧
    ¬ "20240102030405-web-7-nginx.core".toList <:+
      "/20240102030405/web-7-nginx-%!s(MISSING).core".toList := by
  refine ⟨by decide, by decide, by decide, by decide, by decide, by decide, by decide⟩

/-- C4 fails as stated: when the hostname lookup fails the host identifier is
empty; the path `/coredumps/20240102030405--myapp.core` cannot be cut into a
directory, fourteen digits and two non-empty identifiers. -/
theorem path_shape_fails_without_hostname :
    buildStandardPath namelessEnv = "/coredumps/20240102030405--myapp.core".toList ∧
    ¬ ∃ dir, CoreShape dir (buildStandardPath namelessEnv) := by
  have hval : buildStandardPath namelessEnv = "/coredumps/20240102030405--myapp.core".toList := by
    decide
  refine ⟨hval, ?_⟩
  rw [hval]
  rintro ⟨dir, ts, host, proc, ⟨hlen, hdig⟩, hhost, -, heq⟩
  have heq' : "/coredumps/20240102030405--myapp.core".toList =
      dir ++ (ts ++ ('-' :: (host ++ '-' :: (proc ++ ".core".toList)))) := by
    rw [heq]
    simp [List.append_assoc]
  have hdrop : ("/coredumps/20240102030405--myapp.core".toList).drop dir.length =
      ts ++ ('-' :: (host ++ '-' :: (proc ++ ".core".toList))) := by
    rw [heq']
    exact List.drop_left' rfl
  have hk : dir.length < 38 := by
    have := congrArg List.length heq'
    simp only [List.length_append] at this
    have h37 : ("/coredumps/20240102030405--myapp.core".toList).length = 37 := by decide
    omega
  have hts : (("/coredumps/20240102030405--myapp.core".toList).drop dir.length).take 14 = ts := by
    rw [hdrop]
    exact List.take_left' hlen
  have hgood : ((("/coredumps/20240102030405--myapp.core".toList).drop dir.length).take 14).length
        = 14 ∧
      ((("/coredumps/20240102030405--myapp.core".toList).drop dir.length).take 14).all
        Char.isDigit = true := by
    rw [hts]
    exact ⟨hlen, List.all_eq_true.mpr hdig⟩
  have hall : ∀ k < 38,
      ((("/coredumps/20240102030405--myapp.core".toList).drop k).take 14).length = 14 ∧
      ((("/coredumps/20240102030405--myapp.core".toList).drop k).take 14).all
        Char.isDigit = true → k = 11 := by decide
  have h11 := hall dir.length hk hgood
  rw [h11] at hdrop hts
  have hts' : ts = "20240102030405".toList := by
    rw [← hts]
    decide
  rw [hts'] at hdrop
  have hrest : host ++ '-' :: (proc ++ ".core".toList) = "-myapp.core".toList := by
    have e : ("/coredumps/20240102030405--myapp.core".toList).drop 11 =
        "20240102030405".toList ++ ('-' :: "-myapp.core".toList) := by decide
    rw [e] at hdrop
    have := List.append_cancel_left hdrop
    simp only [List.cons.injEq, true_and] at this
    exact this.symm
  cases host with
  | nil => exact hhost rfl
  | cons x host' =>
    have e : "-myapp.core".toList = '-' :: "myapp.core".toList := by decide
    rw [e] at hrest
    simp only [List.cons_append, List.cons.injEq] at hrest
    have hmem : '-' ∈ "myapp.core".toList := by
      rw [← hrest.2]
      simp
    exact absurd hmem (by decide)

/-- C4, amended: for a flag `-prefix` without `%` and a clock with a four-digit
year, both variants return `<dir><14 digits>-<host>-<proc>.core`, where `<dir>`
is the directory part of `path.Join(prefix, "%s-%s-%s.core")`, empty or ending
in a slash; the identifiers may be empty, except the process identifier of the
standard variant. -/
theorem path_shape (env : Env) (hp : '%' ∉ env.pfx) (ht : env.now.Valid) :
    ∃ dir, mainPathFmt env.pfx = dir ++ "%s-%s-%s.core".toList ∧
      (dir = [] ∨ ∃ d, dir = d ++ ['/']) ∧
      (∃ ts host proc, IsTimestamp ts ∧ proc ≠ [] ∧
        buildStandardPath env = dir ++ ts ++ '-' :: host ++ '-' :: proc ++ ".core".toList) ∧
      ∀ id path, buildDockerPath env id = some path →
        ∃ ts host proc, IsTimestamp ts ∧
          path = dir ++ ts ++ '-' :: host ++ '-' :: proc ++ ".core".toList := by
  obtain ⟨dir, h1, h2, h3⟩ := sprintf_mainPathFmt env.pfx hp
  have hts := formatTimestamp_digits env.now ht
  refine ⟨dir, h1, h2, ?_, ?_⟩
  · unfold buildStandardPath
    simp only
    split
    · exact ⟨_, _, _, hts, by simp, h3 _ _ _ _⟩
    · exact ⟨_, _, _, hts, pathBase_ne_nil _, h3 _ _ _ _⟩
  · intro id path hpath
    unfold buildDockerPath at hpath
    split at hpath
    · exact Option.noConfusion hpath
    · split at hpath
      · exact Option.noConfusion hpath
      · simp only at hpath
        split at hpath
        · rw [← Option.some.inj hpath]
          exact ⟨_, _, _, hts, h3 _ _ _ _⟩
        · rw [← Option.some.inj hpath]
          exact ⟨_, _, _, hts, h3 _ _ _ _⟩

/-- The run without a hostname has the amended shape under `/coredumps/`. -/
theorem path_shape_witness :
    '%' ∉ namelessEnv.pfx ∧ namelessEnv.now.Valid ∧
    ∃ ts host proc, IsTimestamp ts ∧ proc ≠ [] ∧
      buildStandardPath namelessEnv =
        "/coredumps/".toList ++ ts ++ '-' :: host ++ '-' :: proc ++ ".core".toList := by
  refine ⟨by decide, by decide, ?_⟩
  obtain ⟨dir, h1, -, ⟨ts, host, proc, hts, hproc, heq⟩, -⟩ :=
    path_shape namelessEnv (by decide) (by decide)
  rw [dir_of_default dir h1] at heq
  exact ⟨ts, host, proc, hts, hproc, heq⟩

/-- A `%s` in the flag `-prefix` is read as a directive of the format: it takes
the timestamp, and the last `%s` of the file name finds no operand. -/
theorem percent_in_flag_is_read_as_format :
    buildStandardPath { bareEnv with pfx := "/%s/".toList } =
      "/20240102030405/host1-myapp-%!s(MISSING).core".toList := by
  decide

/-! ## The writers -/

theorem fileAt_cons_self (p : Str) (b : List Byte) (files : List (Str × List Byte)) :
    fileAt ((p, b) :: files) p = some b := by
  simp [fileAt]

theorem writeToSystemPath_file (env : Env) (storagePath : Str) (w : World)
    (hcreate : env.osCreate (pathJoin [env.fallbackPath, storagePath]) = true) :
    fileAt (writeToSystemPath env storagePath w).localFiles
      (pathJoin [env.fallbackPath, storagePath]) = some w.stdin := by
  unfold writeToSystemPath
  simp only [hcreate, if_true]
  split <;> exact fileAt_cons_self _ _ _

theorem writeDump_remote_fails (env : Env) (storagePath : Str) (w : World)
    (hremote : env.hdfsNewForUser env.hdfsNamenode = false ∨ env.hdfsCreate storagePath = false) :
    ∃ w1, w1.stdin = w.stdin ∧ w1.localDirs = w.localDirs ∧ w1.localFiles = w.localFiles ∧
      writeDump env storagePath w = writeToSystemPath env storagePath w1 := by
  unfold writeDump
  by_cases h1 : env.hdfsNewForUser env.hdfsNamenode = false
  · exact ⟨w, rfl, rfl, rfl, by simp [h1]⟩
  · have h2 : env.hdfsCreate storagePath = false := by
      rcases hremote with h | h
      · exact absurd h h1
      · exact h
    simp only [h1, if_false, h2, if_true]
    refine ⟨_, ?_, ?_, ?_, rfl⟩ <;> split <;> rfl

/-- C3: when the remote writer fails (no HDFS client, or no HDFS file) and the
local filesystem accepts the directory and the file, the run leaves at
`path.Join(fallbackPath, storagePath)` a local file with exactly the bytes that
waited on standard input; this holds whatever the flag `-no-fallback` says, so
in particular when the fallback is enabled. -/
theorem fallback_file_holds_input (env : Env) (storagePath : Str) (w : World)
    (hremote : env.hdfsNewForUser env.hdfsNamenode = false ∨ env.hdfsCreate storagePath = false)
    (hmkdir : env.osMkdirAll (pathDir (pathJoin [env.fallbackPath, storagePath])) = true)
    (hcreate : env.osCreate (pathJoin [env.fallbackPath, storagePath]) = true) :
    fileAt (writeDump env storagePath w).localFiles
        (pathJoin [env.fallbackPath, storagePath]) = some w.stdin ∧
      pathDir (pathJoin [env.fallbackPath, storagePath]) ∈
        (writeDump env storagePath w).localDirs ∧
      ∀ cgroups, env.readFile (procFile env.pid "cgroup".toList) = some cgroups →
        storagePathFor env cgroups = some storagePath →
        main env w = Outcome.returned (writeDump env storagePath w) := by
  obtain ⟨w1, hs, -, -, he⟩ := writeDump_remote_fails env storagePath w hremote
  refine ⟨?_, ?_, ?_⟩
  · rw [he, writeToSystemPath_file env storagePath w1 hcreate, hs]
  · rw [he]
    unfold writeToSystemPath
    simp [hmkdir, hcreate]
  · intro cgroups hc hsp
    unfold main
    simp only [hc, hsp]

/-- The scenario of the unreachable remote endpoint: with the fallback root
`/tmp/` the bytes land at `/tmp/coredumps/<timestamp>-host1-myapp.core`. -/
theorem fallback_file_holds_input_witness :
    (bareEnv.hdfsNewForUser bareEnv.hdfsNamenode = false ∨
      bareEnv.hdfsCreate "/coredumps/20240102030405-host1-myapp.core".toList = false) ∧
    bareEnv.noFallback = false ∧
    pathJoin [bareEnv.fallbackPath, "/coredumps/20240102030405-host1-myapp.core".toList] =
      "/tmp/coredumps/20240102030405-host1-myapp.core".toList ∧
    fileAt (main bareEnv world0).world.localFiles
      "/tmp/coredumps/20240102030405-host1-myapp.core".toList = some [127, 69, 76] := by
  have hj : pathJoin [bareEnv.fallbackPath, "/coredumps/20240102030405-host1-myapp.core".toList] =
      "/tmp/coredumps/20240102030405-host1-myapp.core".toList := by decide
  obtain ⟨h1, -, h3⟩ := fallback_file_holds_input bareEnv
    "/coredumps/20240102030405-host1-myapp.core".toList world0
    (Or.inl (by decide)) (by decide) (by decide)
  refine ⟨Or.inl (by decide), by decide, hj, ?_⟩
  rw [h3 "1:name=systemd:/user.slice\n".toList (by decide) (by decide)]
  rw [hj] at h1
  exact h1

/-- C2 fails on the code: the flag `-no-fallback` is declared and never read.
With the flag set and no HDFS client, the run still creates the local directory
and the local file and fills it with the input; the flag changes no run. -/
theorem no_fallback_flag_is_ignored :
    noFallbackEnv.noFallback = true ∧
    noFallbackEnv.hdfsNewForUser noFallbackEnv.hdfsNamenode = false ∧
    (main noFallbackEnv world0).world.localDirs = ["/tmp/coredumps".toList] ∧
    (main noFallbackEnv world0).world.localFiles =
      [("/tmp/coredumps/20240102030405-host1-myapp.core".toList, [127, 69, 76])] ∧
    ∀ (env : Env) (w : World) (flag : Bool),
      main { env with noFallback := flag } w = main env w := by
  refine ⟨by decide, by decide, by decide, by decide, ?_⟩
  intro env w flag
  rfl

theorem buildDockerPath_eq_none_iff (env : Env) (id : Str) :
    buildDockerPath env id = none ↔
      (env.dockerClient = false ∨ env.containerInspect id = none) := by
  unfold buildDockerPath
  by_cases hd : env.dockerClient = false
  · simp [hd]
  · cases hi : env.containerInspect id with
    | none => simp [hd]
    | some c =>
      simp only [hd, if_false, false_or, reduceCtorEq, iff_false]
      split <;> simp

/-- The function `main` panics exactly when the cgroup file cannot be read, or a
container id was found and the client of the container runtime cannot be made
or the inspection fails; it has changed nothing then. -/
theorem main_aborts_iff (env : Env) (w : World) :
    ((main env w).aborted = true ↔
      (env.readFile (procFile env.pid "cgroup".toList) = none ∨
        ∃ cgroups id, env.readFile (procFile env.pid "cgroup".toList) = some cgroups ∧
          selectVariant cgroups = Variant.docker id ∧
          (env.dockerClient = false ∨ env.containerInspect id = none))) ∧
    ((main env w).aborted = true → (main env w).world = w) := by
  unfold main
  cases hc : env.readFile (procFile env.pid "cgroup".toList) with
  | none => simp [Outcome.aborted, Outcome.world]
  | some cgroups =>
    simp only [false_or, Option.some.injEq, reduceCtorEq]
    cases hsel : selectVariant cgroups with
    | standard =>
      simp [storagePathFor, hsel, Outcome.aborted]
    | docker id =>
      have hkey : (∃ cg id', cgroups = cg ∧ selectVariant cg = Variant.docker id' ∧
          (env.dockerClient = false ∨ env.containerInspect id' = none)) ↔
          buildDockerPath env id = none := by
        rw [buildDockerPath_eq_none_iff]
        constructor
        · rintro ⟨cg, id', rfl, hs, h⟩
          rw [hsel] at hs
          injection hs with hs
          rw [hs]
          exact h
        · intro h
          exact ⟨cgroups, id, rfl, hsel, h⟩
      rw [hkey]
      simp only [storagePathFor, hsel]
      cases hb : buildDockerPath env id with
      | none => simp [Outcome.aborted, Outcome.world]
      | some p => simp [Outcome.aborted]

/-- C8 fails as stated: the package-level `var logger = setupLogging()` runs in
every run before `main` and panics when `syslog.NewLogger` fails; with a
readable cgroup file without `docker/` the run is aborted although neither
cause of the claim is present. -/
theorem run_aborts_without_syslog :
    syslogDownEnv.readFile (procFile syslogDownEnv.pid "cgroup".toList) =
      some "1:name=systemd:/user.slice\n".toList ∧
    selectVariant "1:name=systemd:/user.slice\n".toList = Variant.standard ∧
    run syslogDownEnv world0 = Outcome.panicked world0 ∧
    ¬ ((run syslogDownEnv world0).aborted = true ↔
      (syslogDownEnv.readFile (procFile syslogDownEnv.pid "cgroup".toList) = none ∨
        ∃ cgroups id,
          syslogDownEnv.readFile (procFile syslogDownEnv.pid "cgroup".toList) = some cgroups ∧
          selectVariant cgroups = Variant.docker id ∧
          (syslogDownEnv.dockerClient = false ∨ syslogDownEnv.containerInspect id = none))) := by
  have hread : syslogDownEnv.readFile (procFile syslogDownEnv.pid "cgroup".toList) =
      some "1:name=systemd:/user.slice\n".toList := by decide
  have hsel : selectVariant "1:name=systemd:/user.slice\n".toList = Variant.standard := by
    decide
  refine ⟨hread, hsel, rfl, ?_⟩
  intro h
  rcases h.mp rfl with hnone | ⟨cgroups, id, hc, hs, -⟩
  · rw [hread] at hnone
    exact Option.noConfusion hnone
  · rw [hread] at hc
    injection hc with hc
    rw [← hc, hsel] at hs
    exact Variant.noConfusion hs

/-- C8, amended: a run is aborted exactly when `setupLogging` cannot make the
syslog logger, or the cgroup file cannot be read, or a container id was found
and the client of the container runtime cannot be made or the inspection
fails; an aborted run has changed nothing, neither in HDFS nor in the local
filesystem.  No result of the hostname lookup, the command line, HDFS or the
local filesystem aborts a run. -/
theorem run_aborts_iff (env : Env) (w : World) :
    ((run env w).aborted = true ↔
      (env.syslogNewLogger = false ∨
        env.readFile (procFile env.pid "cgroup".toList) = none ∨
        ∃ cgroups id, env.readFile (procFile env.pid "cgroup".toList) = some cgroups ∧
          selectVariant cgroups = Variant.docker id ∧
          (env.dockerClient = false ∨ env.containerInspect id = none))) ∧
    ((run env w).aborted = true → (run env w).world = w) := by
  obtain ⟨h1, h2⟩ := main_aborts_iff env w
  unfold run setupLogging
  cases hs : env.syslogNewLogger with
  | false => simp [Outcome.aborted, Outcome.world]
  | true =>
    have e : (if true = false then Outcome.panicked w else main env w) = main env w :=
      if_neg (by decide)
    rw [e]
    refine ⟨?_, h2⟩
    rw [h1]
    constructor
    · intro h
      exact Or.inr h
    · rintro (h | h)
      · exact absurd h (by decide)
      · exact h

/-! ## The local path of the fallback -/

theorem foldl_cleanElem_grows (rooted : Bool) (es : List Str) (st : Str × Nat)
    (hes : ∀ e ∈ es, e ≠ ['.', '.']) :
    ∃ s, es.foldl (cleanElem rooted) st = (st.1 ++ s, st.2) ∧
      (s = [] ∨ (∃ r, s = '/' :: r) ∨ (rooted = true ∧ st.1.length = 1) ∨
        (rooted = false ∧ st.1.length = 0)) := by
  induction es generalizing st with
  | nil => exact ⟨[], by simp, Or.inl rfl⟩
  | cons e t ih =>
    have hne : e ≠ ['.', '.'] := hes e (List.mem_cons_self _ _)
    have ht : ∀ e' ∈ t, e' ≠ ['.', '.'] := fun e' he' => hes e' (List.mem_cons_of_mem _ he')
    simp only [List.foldl_cons]
    by_cases h0 : e = []
    · have : cleanElem rooted st e = st := by simp [cleanElem, h0]
      rw [this]
      exact ih st ht
    by_cases h1 : e = ['.']
    · have : cleanElem rooted st e = st := by simp [cleanElem, h1]
      rw [this]
      exact ih st ht
    rw [cleanElem_real rooted st e h0 h1 hne]
    obtain ⟨s2, hs2, -⟩ := ih ((if (rooted = true ∧ st.1.length ≠ 1) ∨
      (rooted = false ∧ st.1.length ≠ 0) then st.1 ++ ['/'] else st.1) ++ e, st.2) ht
    rw [hs2]
    by_cases hc : (rooted = true ∧ st.1.length ≠ 1) ∨ (rooted = false ∧ st.1.length ≠ 0)
    · refine ⟨'/' :: (e ++ s2), by rw [if_pos hc]; simp, Or.inr (Or.inl ⟨_, rfl⟩)⟩
    · refine ⟨e ++ s2, by rw [if_neg hc]; simp, Or.inr (Or.inr ?_)⟩
      cases rooted with
      | true =>
        left
        refine ⟨rfl, ?_⟩
        by_contra hl
        exact hc (Or.inl ⟨rfl, hl⟩)
      | false =>
        right
        refine ⟨rfl, ?_⟩
        by_contra hl
        exact hc (Or.inr ⟨rfl, hl⟩)

theorem pathClean_eq (x : Char) (X : Str) :
    pathClean (x :: X) =
      if ((cleanLoop (decide (x = '/')) (if x = '/' then X else x :: X)).1).length = 0
      then ['.'] else (cleanLoop (decide (x = '/')) (if x = '/' then X else x :: X)).1 := by
  by_cases hx : x = '/'
  · simp [pathClean, hx]
  · simp [pathClean, hx]

theorem cleanLoop_append_path (rooted : Bool) (b sp : Str) :
    cleanLoop rooted (b ++ '/' :: sp) =
      (stringsSplit '/' sp).foldl (cleanElem rooted) (cleanLoop rooted b) := by
  unfold cleanLoop
  rw [stringsSplit_append_sep, List.foldl_append]

/-- C10, amended: when no element of the storage path is `..`, the local path
`path.Join(fallbackPath, storagePath)` is the cleaned fallback root or lies
below it, unless the fallback root cleans to `.`, the working directory. -/
theorem local_path_inside_fallback_root (fallbackPath storagePath : Str)
    (hroot : fallbackPath ≠ [])
    (hdots : ∀ e ∈ stringsSplit '/' storagePath, e ≠ ['.', '.']) :
    pathClean fallbackPath = ['.'] ∨
      InsideDir (pathClean fallbackPath) (pathJoin [fallbackPath, storagePath]) := by
  by_cases hsp : storagePath = []
  · right
    subst hsp
    exact ⟨[], by simp [pathJoin, hroot, List.intercalate], Or.inl rfl⟩
  rw [pathJoin_pair fallbackPath storagePath hroot hsp]
  cases fallbackPath with
  | nil => exact absurd rfl hroot
  | cons x X =>
    have e : (x :: X) ++ '/' :: storagePath = x :: (X ++ '/' :: storagePath) := rfl
    rw [e, pathClean_eq x X, pathClean_eq x (X ++ '/' :: storagePath)]
    have hbody : (if x = '/' then X ++ '/' :: storagePath else x :: (X ++ '/' :: storagePath)) =
        (if x = '/' then X else x :: X) ++ '/' :: storagePath := by
      split <;> rfl
    rw [hbody, cleanLoop_append_path]
    have hinv := (cleanLoop_inv (fun _ => True) (decide (x = '/'))
      (if x = '/' then X else x :: X) trivial trivial (fun _ _ => trivial)).1
    generalize cleanLoop (decide (x = '/')) (if x = '/' then X else x :: X) = st at hinv ⊢
    obtain ⟨s, hs, hq⟩ := foldl_cleanElem_grows (decide (x = '/')) _ st hdots
    rw [hs]
    by_cases hst : st.1.length = 0
    · left
      simp [hst]
    · right
      have hne : (st.1 ++ s).length ≠ 0 := by
        simp only [List.length_append]
        omega
      simp only [hst, hne, if_false]
      refine ⟨s, rfl, ?_⟩
      rcases hq with h | h | ⟨hr, hl⟩ | ⟨-, hl⟩
      · exact Or.inl h
      · exact Or.inr (Or.inl h)
      · obtain ⟨-, o, ho⟩ := hinv hr
        rw [ho] at hl
        have ho' : o = [] := List.length_eq_zero.mp (by simpa using hl)
        exact Or.inr (Or.inr ⟨[], by rw [ho, ho']; rfl⟩)
      · exact absurd hl hst

/-- C10 fails as stated: a pod name label with `..` elements gives a storage
path that `path.Join` resolves to `/etc/cron.d/y-nginx.core`, outside the
fallback root `/tmp`, and the run writes the dump there. -/
theorem local_path_escapes_fallback_root :
    selectVariant "4:cpu:/docker/abcdef\n".toList = Variant.docker "abcdef".toList ∧
    buildDockerPath escapeEnv "abcdef".toList =
      some "/coredumps/20240102030405-x/../../../etc/cron.d/y-nginx.core".toList ∧
    pathClean escapeEnv.fallbackPath = "/tmp".toList ∧
    pathJoin [escapeEnv.fallbackPath,
        "/coredumps/20240102030405-x/../../../etc/cron.d/y-nginx.core".toList] =
      "/etc/cron.d/y-nginx.core".toList ∧
    ¬ "/tmp".toList <+: "/etc/cron.d/y-nginx.core".toList ∧
    ¬ InsideDir (pathClean escapeEnv.fallbackPath)
      (pathJoin [escapeEnv.fallbackPath,
        "/coredumps/20240102030405-x/../../../etc/cron.d/y-nginx.core".toList]) ∧
    (main escapeEnv world0).world.localFiles =
      [("/etc/cron.d/y-nginx.core".toList, [127, 69, 76])] := by
  refine ⟨by decide, by decide, by decide, by decide, by decide, ?_, by decide⟩
  have h1 : pathClean escapeEnv.fallbackPath = "/tmp".toList := by decide
  have h2 : pathJoin [escapeEnv.fallbackPath,
      "/coredumps/20240102030405-x/../../../etc/cron.d/y-nginx.core".toList] =
      "/etc/cron.d/y-nginx.core".toList := by decide
  rw [h1, h2]
  rintro ⟨s, hs, -⟩
  have hp : "/tmp".toList <+: "/etc/cron.d/y-nginx.core".toList := ⟨s, hs.symm⟩
  exact absurd hp (by decide)

/-- The path of the bare process stays below `/tmp`. -/
theorem local_path_inside_fallback_root_witness :
    "/tmp/".toList ≠ [] ∧
    (∀ e ∈ stringsSplit '/' "/coredumps/20240102030405-host1-myapp.core".toList,
      e ≠ ['.', '.']) ∧
    InsideDir "/tmp".toList "/tmp/coredumps/20240102030405-host1-myapp.core".toList := by
  refine ⟨by decide, by decide, ?_⟩
  have h1 : pathClean "/tmp/".toList = "/tmp".toList := by decide
  have h2 : pathJoin ["/tmp/".toList, "/coredumps/20240102030405-host1-myapp.core".toList] =
      "/tmp/coredumps/20240102030405-host1-myapp.core".toList := by decide
  rcases local_path_inside_fallback_root "/tmp/".toList
    "/coredumps/20240102030405-host1-myapp.core".toList (by decide) (by decide) with h | h
  · rw [h1] at h
    exact absurd h (by decide)
  · rw [h1, h2] at h
    exact h

end Dumptruck
